import Mathlib

/-!
Verification of the `obsidian-to-wikijs` migration script (`main.py`) against its
natural-language specification.

The pure logic of the script is shallowly embedded here:
  * `fix_file_name` — the filename/path sanitizer (with faithful models of
    `os.path.split`, `os.path.splitext`, `os.path.join` for POSIX paths,
    `str.lower` on ASCII, and `str.replace`);
  * `parse_markdown_with_front_matter` — the front-matter splitter (with a model
    of `str.splitlines` covering `\n`, `\r\n`, `\r` and a model of
    `yaml.safe_load` on block mappings, block sequences, plain scalars and
    empty documents);
  * `wikilink_to_mdlink` — the wikilink resolver (with models of
    `pathlib.PurePath` operations and `urllib.parse.quote`);
  * `get_extra_tags` / `filter_tags` — the tag extractor and merger;
  * `add_front_matter` — the document assembler;
  * the per-item extension dispatch of `copy_folder_recursively`.

Strings are handled through their underlying `List Char`; every definition is
executable.
-/

namespace ObsToWiki

/-! ## Character-level utilities -/

/-- Model of `str.lower` on a single character (ASCII range; the script's
filenames/paths are ASCII).  Code points 65-90 are `A`-`Z`. -/
def pyLowerChar (c : Char) : Char :=
  if 65 ≤ c.toNat ∧ c.toNat ≤ 90 then Char.ofNat (c.toNat + 32) else c

/-- Model of `str.lower` (ASCII subset of Python's Unicode lowercasing). -/
def pyLower (l : List Char) : List Char := l.map pyLowerChar

/-- Model of `str.replace(" - ", "-")`: left-to-right, non-overlapping. -/
def replaceSDS : List Char → List Char
  | ' ' :: '-' :: ' ' :: rest => '-' :: replaceSDS rest
  | c :: rest => c :: replaceSDS rest
  | [] => []

/-- Model of `str.replace(" ", "-")` (single-character pattern, so a plain map). -/
def replaceSpace (l : List Char) : List Char :=
  l.map fun c => if c = ' ' then '-' else c

/-- The `.lower().replace(" - ", "-").replace(" ", "-")` pipeline applied at the
end of `fix_file_name`. -/
def lowerAndDashes (l : List Char) : List Char :=
  replaceSpace (replaceSDS (pyLower l))

/-! ## POSIX path primitives (`os.path.split`, `os.path.splitext`, `os.path.join`) -/

/-- Model of `posixpath.split`: break at the last `/`; the head keeps no
trailing slashes unless it consists only of slashes. -/
def pySplitPath (l : List Char) : List Char × List Char :=
  let r := l.reverse
  let tailRev := r.takeWhile (· ≠ '/')
  let headRev := r.drop tailRev.length
  let head := headRev.reverse
  if head ≠ [] ∧ head.any (· ≠ '/') then
    ((head.reverse.dropWhile (· = '/')).reverse, tailRev.reverse)
  else
    (head, tailRev.reverse)

/-- Model of `posixpath.splitext`: split at the last dot of the basename,
provided some non-dot character of the basename precedes that dot (a leading
run of dots, as in `.gitignore` or `...a`, is not an extension). -/
def pySplitext (l : List Char) : List Char × List Char :=
  let r := l.reverse
  let extRev := r.takeWhile fun c => c ≠ '.' ∧ c ≠ '/'
  match r.drop extRev.length with
  | c :: restRev =>
    if c = '.' then
      if (restRev.takeWhile (· ≠ '/')).any (· ≠ '.') then
        (restRev.reverse, '.' :: extRev.reverse)
      else (l, [])
    else (l, [])
  | [] => (l, [])

/-- Model of two-argument `posixpath.join`. -/
def pyJoin (a b : List Char) : List Char :=
  if b.head? = some '/' then b
  else if a = [] ∨ a.getLast? = some '/' then a ++ b
  else a ++ '/' :: b

/-! ## `fix_file_name` (main.py lines 121-139) -/

/-- `fix_file_name` on the underlying character list:
split off the directory, delete dots inside the final segment's stem
(`name.replace('.', '')`), rejoin, then lowercase and replace `" - "` and
`" "` with `"-"`. -/
def fixFileNameChars (l : List Char) : List Char :=
  let ps := pySplitPath l
  let ne := pySplitext ps.2
  lowerAndDashes (pyJoin ps.1 ((ne.1.filter (· ≠ '.')) ++ ne.2))

/-- The script's `fix_file_name` path sanitizer. -/
def fix_file_name (s : String) : String :=
  ⟨fixFileNameChars s.data⟩

example : fix_file_name "Note One.md" = "note-one.md" := by decide
example : fix_file_name "A - B.C.md" = "a-bc.md" := by decide
example : fix_file_name "a.b.c/x.md" = "a.b.c/x.md" := by decide
example : fix_file_name "a.b.c" = "ab.c" := by decide
example : fix_file_name "/b/c/Note Two.md" = "/b/c/note-two.md" := by decide
example : fix_file_name ".gitignore" = "gitignore" := by decide

/-- POSIX join of a list of path segments with `/`, used to state how the
whole-path sanitization relates to per-segment sanitization. -/
def joinSegs : List (List Char) → List Char
  | [] => []
  | [s] => s
  | s :: r :: rest => s ++ '/' :: joinSegs (r :: rest)

/-! ## Lines and whitespace (`str.splitlines`, `str.strip`, `"\n".join`) -/

/-- Python whitespace for `str.strip()` (ASCII subset). -/
def isPySpace (c : Char) : Bool :=
  c = ' ' ∨ c = '\t' ∨ c = '\n' ∨ c = '\x0d' ∨ c = '\x0b' ∨ c = '\x0c'

/-- Model of `str.strip()`. -/
def pyStrip (l : List Char) : List Char :=
  ((l.dropWhile isPySpace).reverse.dropWhile isPySpace).reverse

/-- Model of `str.splitlines()` for `\n`-terminated text.  The script reads
files in text mode, where Python's universal-newline handling already
translates `\r\n` and `\r` to `\n`, so splitting on `\n` alone is faithful to
the data the functions actually receive. -/
def splitLinesChars : List Char → List (List Char)
  | [] => []
  | c :: rest =>
    if c = '\n' then [] :: splitLinesChars rest
    else
      match splitLinesChars rest with
      | [] => [[c]]
      | h :: t => (c :: h) :: t

/-- `"\n".join(lines)`. -/
def joinNL (ls : List (List Char)) : List Char :=
  List.intercalate ['\n'] ls

example : splitLinesChars "a\nb\n".data = ["a".data, "b".data] := by decide
example : splitLinesChars "a\n\nb".data = ["a".data, [], "b".data] := by decide
example : splitLinesChars "".data = [] := by decide
example : joinNL (splitLinesChars "a\n".data) = "a".data := by decide

/-! ## Python values, dictionaries, and a mini-YAML model -/

/-- Scalar values stored in a front-matter dictionary.  The mapping subset of
YAML modelled here has scalar values only; the script itself only ever stores
strings and booleans (tags are joined into one comma-separated string before
being stored). -/
inductive PyVal where
  | s (v : String)
  | b (v : Bool)
deriving Repr, DecidableEq

/-- A Python `dict[str, ...]`: association list in insertion order with unique
keys; assignment updates the first matching key in place, else appends. -/
abbrev PyDict := List (String × PyVal)

def dictGet (m : PyDict) (k : String) : Option PyVal :=
  match m with
  | [] => none
  | e :: rest => if e.1 = k then some e.2 else dictGet rest k

def dictSet (m : PyDict) (k : String) (v : PyVal) : PyDict :=
  match m with
  | [] => [(k, v)]
  | e :: rest => if e.1 = k then (k, v) :: rest else e :: dictSet rest k v

/-- One line `key: value` of the mapping subset of YAML that the script's
front matter uses.  `true`/`false` load as booleans, everything else as a
plain string scalar. -/
def parseYamlLine (l : List Char) : Option (String × PyVal) :=
  let k := l.takeWhile (· ≠ ':')
  if k.length = l.length then none
  else
    let key := pyStrip k
    if key = [] then none
    else
      let v := pyStrip (l.drop (k.length + 1))
      if v = "true".data then some (⟨key⟩, .b true)
      else if v = "false".data then some (⟨key⟩, .b false)
      else some (⟨key⟩, .s ⟨v⟩)

/-- The extra line-boundary characters of `str.splitlines` beyond `\n` and the
carriage returns that text-mode reading already folds into `\n`.  A plain
scalar containing one of these would be split by Python before YAML ever sees
it, so the scalar model excludes them. -/
def isLineBreakExtra (c : Char) : Bool :=
  c == '\x0b' || c == '\x0c' || c == '\x1c' || c == '\x1d' || c == '\x1e' ||
    c == '\x85' || c == '\u2028' || c == '\u2029'

/-- A stripped line that YAML loads as the plain string scalar equal to
itself: nonempty, starting with a letter (which rules out the `- [ { ? ! & * |
> % @ \x22 ' #` indicators, numbers, timestamps and the `.inf`/`.nan`
floats), containing no `:` (so it cannot open a mapping entry and cannot hold
the forbidden `: ` sequence), no `#` (no comment can start mid-line), no
stray line-boundary characters, and not a bool/null keyword in any case
variant (`true`, `false`, `yes`, `no`, `on`, `off`, `null`). -/
def plainScalarChars (s : List Char) : Bool :=
  match s with
  | [] => false
  | c :: _ =>
    c.isAlpha && s.all (fun d => d != ':' && d != '#' && !(isLineBreakExtra d)) &&
    !(pyLower s == "true".data || pyLower s == "false".data ||
      pyLower s == "yes".data || pyLower s == "no".data ||
      pyLower s == "on".data || pyLower s == "off".data ||
      pyLower s == "null".data)

/-- One line `- item` of a block sequence whose item is a plain string
scalar. -/
def parseSeqItem (l : List Char) : Option PyVal :=
  match pyStrip l with
  | '-' :: ' ' :: rest =>
    let v := pyStrip rest
    if plainScalarChars v then some (.s ⟨v⟩) else none
  | _ => none

/-- The result of `yaml.safe_load` on a front-matter block: a mapping, a
non-mapping value (plain scalar or block sequence — `safe_load` returns these
without raising), the `None` of an all-blank document, or a `yaml.YAMLError`.
-/
inductive YamlLoad where
  | mapping (m : PyDict)
  | scalar (v : PyVal)
  | seq (items : List PyVal)
  | nullDoc
  | err
deriving Repr, DecidableEq

/-- Model of `yaml.safe_load` on the subset of YAML relevant to the script:
blocks of `key: value` lines load as a mapping; blocks of `- item` lines load
as a list; a single plain-scalar line loads as that string (NOT an error —
the block is YAML-valid even though it is no mapping); an all-blank block
loads as `None`; blocks outside this subset (which in the script's data would
be malformed YAML such as a mapping line followed by a bare scalar) are
mapped to `err`, modelling `yaml.YAMLError`.  Blank lines are skipped
throughout, as the YAML block structure permits. -/
def miniSafeLoad (content : List Char) : YamlLoad :=
  let lines := (splitLinesChars content).filter (fun l => pyStrip l ≠ [])
  if lines = [] then .nullDoc
  else
    match lines.mapM parseYamlLine with
    | some entries => .mapping (entries.foldl (fun m e => dictSet m e.1 e.2) [])
    | none =>
      match lines.mapM parseSeqItem with
      | some items => .seq items
      | none =>
        match lines with
        | [l] =>
          if plainScalarChars (pyStrip l) then .scalar (.s ⟨pyStrip l⟩) else .err
        | _ => .err

example : miniSafeLoad "title: t\ntags: x".data =
    .mapping [("title", .s "t"), ("tags", .s "x")] := by decide
example : miniSafeLoad "hello".data = .scalar (.s "hello") := by decide
example : miniSafeLoad "- a\n- b".data = .seq [.s "a", .s "b"] := by decide
example : miniSafeLoad "\n".data = .nullDoc := by decide
example : miniSafeLoad "a: b\nplain".data = .err := by decide

/-! ## `parse_markdown_with_front_matter` (main.py lines 184-238) -/

/-- What the splitter hands back as "front matter": the source annotates the
slot as `dict[str, any]` but actually stores whatever `yaml.safe_load`
returned, so a non-mapping block comes back as a bare value or list (on which
the assembler's `matter["title"] = ...` subsequently raises `TypeError`). -/
inductive FrontMatter where
  | dict (m : PyDict)
  | value (v : PyVal)
  | listv (items : List PyVal)
deriving Repr, DecidableEq

/-- Search `lines[1:]` for the first line that strips to `---`; return the
lines strictly before it and strictly after it. -/
def findCloseDelim : List (List Char) → Option (List (List Char) × List (List Char))
  | [] => none
  | l :: rest =>
    if pyStrip l = "---".data then some ([], rest)
    else
      match findCloseDelim rest with
      | some (pre, post) => some (l :: pre, post)
      | none => none

/-- The script's front-matter splitter.  When the block loads, the body is
`"\n".join(lines[i+1:])` and the metadata is whatever `safe_load` returned —
a mapping, a bare value, or a list (`None` is replaced by `{}` in the
source); only on a structural failure (no opening `---`, no closing `---`)
or a genuine `yaml.YAMLError` does it degrade to empty metadata with the
body `"\n".join(lines)`, exactly as in the source. -/
def parse_markdown_with_front_matter (s : String) : FrontMatter × String :=
  let lines := splitLinesChars s.data
  match lines with
  | [] => (.dict [], ⟨joinNL []⟩)
  | l0 :: rest =>
    if pyStrip l0 = "---".data then
      match findCloseDelim rest with
      | some (pre, post) =>
        match miniSafeLoad (joinNL pre) with
        | .mapping fm => (.dict fm, ⟨joinNL post⟩)
        | .scalar v => (.value v, ⟨joinNL post⟩)
        | .seq items => (.listv items, ⟨joinNL post⟩)
        | .nullDoc => (.dict [], ⟨joinNL post⟩)
        | .err => (.dict [], ⟨joinNL lines⟩)
      | none => (.dict [], ⟨joinNL lines⟩)
    else (.dict [], ⟨joinNL lines⟩)

example : parse_markdown_with_front_matter "---\ntitle: t\n---\nbody" =
    (.dict [("title", .s "t")], "body") := by decide
example : parse_markdown_with_front_matter "---\n---\nx" = (.dict [], "x") := by decide
example : parse_markdown_with_front_matter "no front matter" =
    (.dict [], "no front matter") := by decide
example : parse_markdown_with_front_matter "a\n" = (.dict [], "a") := by decide
example : parse_markdown_with_front_matter "---\nhello\n---\nrest" =
    (.value (.s "hello"), "rest") := by decide

/-! ## `pathlib.PurePath` model -/

/-- A `pathlib` path: an absolute-anchor flag plus the list of segments
(`parts` without the leading `/`). -/
structure PyPath where
  absolute : Bool
  segments : List String
deriving Repr, DecidableEq

/-- The note index: stem → vault-relative path (built in `__main__` as
`{f.stem: f.relative_to(vault_path) for f in vault_path.rglob("*.md")}`).
Modelled as an association list with unique keys; `nmGet` is `dict.get`. -/
abbrev NoteMap := List (String × PyPath)

def nmGet (m : NoteMap) (k : String) : Option PyPath :=
  (m.find? (fun e => e.1 == k)).map (·.2)

/-- `pathlib` `name.stem`/`name.suffix` split of a single segment: the suffix
starts at the last dot provided that dot is neither the first nor the last
character of the name. -/
def stemAndExt (n : List Char) : List Char × List Char :=
  let r := n.reverse
  let e := r.takeWhile (· ≠ '.')
  if e.length < n.length then
    let i := n.length - 1 - e.length
    if 0 < i ∧ e ≠ [] then (n.take i, n.drop i) else (n, [])
  else (n, [])

/-- `Path.with_suffix(".md")`. -/
def withSuffixMd (p : PyPath) : PyPath :=
  match p.segments.getLast? with
  | none => p
  | some n => ⟨p.absolute, p.segments.dropLast ++ [⟨(stemAndExt n.data).1 ++ ".md".data⟩]⟩

/-- `Path.parent`. -/
def parentPath (p : PyPath) : PyPath :=
  ⟨p.absolute, p.segments.dropLast⟩

/-- `self.relative_to(other)`: succeeds exactly when both paths share the
anchor and `other`'s segments are a prefix of `self`'s; the result is the
remaining segments.  Mixing a relative `self` with an absolute `other` (or
vice versa) raises `ValueError`, modelled as `none`. -/
def relativeTo (self other : PyPath) : Option PyPath :=
  if self.absolute = other.absolute ∧ other.segments.isPrefixOf self.segments then
    some ⟨false, self.segments.drop other.segments.length⟩
  else none

/-- `Path.as_posix()`. -/
def posixOf (p : PyPath) : List Char :=
  if p.absolute then '/' :: (String.intercalate "/" p.segments).data
  else if p.segments = [] then ['.']
  else (String.intercalate "/" p.segments).data

/-! ## `urllib.parse.quote` model -/

def hexDigit (n : Nat) : Char :=
  if n < 10 then Char.ofNat ('0'.toNat + n) else Char.ofNat ('A'.toNat + n - 10)

/-- UTF-8 bytes of a code point. -/
def utf8Bytes (n : Nat) : List Nat :=
  if n < 0x80 then [n]
  else if n < 0x800 then [0xC0 + n / 64, 0x80 + n % 64]
  else if n < 0x10000 then [0xE0 + n / 4096, 0x80 + (n / 64) % 64, 0x80 + n % 64]
  else [0xF0 + n / 262144, 0x80 + (n / 4096) % 64, 0x80 + (n / 64) % 64, 0x80 + n % 64]

/-- `urllib.parse.quote` with the default `safe='/'`: keep unreserved
characters and `/`, percent-encode everything else byte by byte. -/
def pyQuoteChar (c : Char) : List Char :=
  if c.isAlphanum ∨ c = '_' ∨ c = '.' ∨ c = '-' ∨ c = '~' ∨ c = '/' then [c]
  else (utf8Bytes c.toNat).flatMap fun b => ['%', hexDigit (b / 16), hexDigit (b % 16)]

def pyQuote (l : List Char) : List Char := l.flatMap pyQuoteChar

example : pyQuote "/b/c/note-two".data = "/b/c/note-two".data := by decide

/-! ## The wikilink token (regex `\[\[([^\]\|#]+)(#[^\]\|]+)?(\|([^\]]+))?\]\]`) -/

/-- The capture groups of one wikilink match: group 1 (target, no `]`, `|`
or `#`), group 2 (anchor, including its leading `#`), group 4 (alias). -/
structure WikiMatch where
  g1 : List Char
  g2 : Option (List Char)
  g4 : Option (List Char)
deriving Repr, DecidableEq

/-- `match.group(0)`: the full matched source text. -/
def wmRaw (m : WikiMatch) : List Char :=
  '[' :: '[' :: (m.g1 ++ m.g2.getD [] ++
    (match m.g4 with | some a => '|' :: a | none => []) ++ [']', ']'])

/-- Character class `[^\]\|#]` of the target group. -/
def g1Char (c : Char) : Bool := c != ']' && c != '|' && c != '#'

/-- Character class `[^\]\|]` of the anchor group. -/
def g2Char (c : Char) : Bool := c != ']' && c != '|'

/-- Character class `[^\]]` of the alias group. -/
def g4Char (c : Char) : Bool := c != ']'

/-- The optional anchor group `(#[^\]\|]+)?`. -/
def parseAnchorGroup (r : List Char) : Option (List Char) × List Char :=
  match r with
  | c :: t =>
    if c = '#' then
      let a := t.takeWhile g2Char
      if a = [] then (none, c :: t) else (some ('#' :: a), t.drop a.length)
    else (none, c :: t)
  | [] => (none, [])

/-- The optional alias group `(\|([^\]]+))?`. -/
def parseAliasGroup (r : List Char) : Option (List Char) × List Char :=
  match r with
  | c :: t =>
    if c = '|' then
      let a := t.takeWhile g4Char
      if a = [] then (none, c :: t) else (some a, t.drop a.length)
    else (none, c :: t)
  | [] => (none, [])

/-- Try to match the wikilink regex at the head of `l`; on success return the
capture groups and the remaining input.  The regex's greedy matching is
deterministic here because every character class excludes the character the
next part of the pattern requires, so no backtracking can succeed where the
greedy parse fails. -/
def tryWikilink (l : List Char) : Option (WikiMatch × List Char) :=
  match l with
  | c1 :: c2 :: rest =>
    if c1 = '[' ∧ c2 = '[' then
      let g1 := rest.takeWhile g1Char
      if g1 = [] then none
      else
        let p2 := parseAnchorGroup (rest.drop g1.length)
        let p4 := parseAliasGroup p2.2
        match p4.2 with
        | x :: y :: rest' =>
          if x = ']' ∧ y = ']' then some (⟨g1, p2.1, p4.1⟩, rest') else none
        | _ => none
    else none
  | _ => none

example : tryWikilink "[[Note Two]]x".data =
    some (⟨"Note Two".data, none, none⟩, "x".data) := by decide
example : tryWikilink "[[a/b#Sec|See]]".data =
    some (⟨"a/b".data, some "#Sec".data, some "See".data⟩, []) := by decide
example : tryWikilink "[[]]".data = none := by decide

theorem drop_length_takeWhile (p : Char → Bool) (l : List Char) :
    l.drop (l.takeWhile p).length = l.dropWhile p := by
  induction l with
  | nil => rfl
  | cons c t ih =>
    by_cases hc : p c
    · simp [List.takeWhile_cons, List.dropWhile_cons, hc, ih]
    · simp [List.takeWhile_cons, List.dropWhile_cons, hc]

theorem takeWhile_append_drop (p : Char → Bool) (l : List Char) :
    l.takeWhile p ++ l.drop (l.takeWhile p).length = l := by
  rw [drop_length_takeWhile]
  exact List.takeWhile_append_dropWhile p l

theorem parseAnchorGroup_append (r : List Char) :
    (parseAnchorGroup r).1.getD [] ++ (parseAnchorGroup r).2 = r := by
  match r with
  | [] => rfl
  | c :: t =>
    by_cases hc : c = '#'
    · subst hc
      by_cases ha : t.takeWhile g2Char = []
      · simp [parseAnchorGroup, ha]
      · rw [show parseAnchorGroup ('#' :: t) = (some ('#' :: t.takeWhile g2Char),
            t.drop (t.takeWhile g2Char).length) from by simp [parseAnchorGroup, ha]]
        simp only [Option.getD_some]
        rw [List.cons_append, takeWhile_append_drop]
    · simp [parseAnchorGroup, hc]

theorem parseAliasGroup_append (r : List Char) :
    (match (parseAliasGroup r).1 with | some a => '|' :: a | none => []) ++
      (parseAliasGroup r).2 = r := by
  match r with
  | [] => rfl
  | c :: t =>
    by_cases hc : c = '|'
    · subst hc
      by_cases ha : t.takeWhile g4Char = []
      · simp [parseAliasGroup, ha]
      · rw [show parseAliasGroup ('|' :: t) = (some (t.takeWhile g4Char),
            t.drop (t.takeWhile g4Char).length) from by simp [parseAliasGroup, ha]]
        simp only []
        rw [List.cons_append, takeWhile_append_drop]
    · simp [parseAliasGroup, hc]

/-- A successful match reconstructs the input: `group(0) ++ remainder = input`. -/
theorem tryWikilink_raw {l : List Char} {m : WikiMatch} {after : List Char}
    (h : tryWikilink l = some (m, after)) : wmRaw m ++ after = l := by
  match l with
  | [] => simp [tryWikilink] at h
  | [c] => simp [tryWikilink] at h
  | c1 :: c2 :: rest =>
    by_cases h12 : c1 = '[' ∧ c2 = '['
    · obtain ⟨h1, h2⟩ := h12
      subst h1; subst h2
      rw [tryWikilink] at h
      rw [if_pos ⟨rfl, rfl⟩] at h
      by_cases hg1 : rest.takeWhile g1Char = []
      · rw [if_pos hg1] at h; exact absurd h (by simp)
      · rw [if_neg hg1] at h
        simp only [] at h
        rcases hr3 : (parseAliasGroup
            (parseAnchorGroup (rest.drop (rest.takeWhile g1Char).length)).2).2 with
          _ | ⟨x, _ | ⟨y, rest'⟩⟩ <;> rw [hr3] at h <;> dsimp only at h
        · exact absurd h (by simp)
        · exact absurd h (by simp)
        · by_cases hxy : x = ']' ∧ y = ']'
          · obtain ⟨hx, hy⟩ := hxy
            subst hx; subst hy
            rw [if_pos ⟨rfl, rfl⟩] at h
            simp only [Option.some.injEq, Prod.mk.injEq] at h
            obtain ⟨hm, ha⟩ := h
            subst ha
            rw [← hm]
            have e2 := parseAnchorGroup_append
              (rest.drop (rest.takeWhile g1Char).length)
            have e4 := parseAliasGroup_append
              (parseAnchorGroup (rest.drop (rest.takeWhile g1Char).length)).2
            rw [hr3] at e4
            simp only [wmRaw, List.cons_append, List.cons.injEq, true_and]
            conv_rhs => rw [← takeWhile_append_drop g1Char rest]
            conv_rhs => rw [← e2]
            conv_rhs => rw [← e4]
            simp [List.append_assoc]
          · rw [if_neg hxy] at h; exact absurd h (by simp)
    · simp [tryWikilink, h12] at h

theorem tryWikilink_after_lt {l : List Char} {m : WikiMatch} {after : List Char}
    (h : tryWikilink l = some (m, after)) : after.length < l.length := by
  have := tryWikilink_raw h
  have hlen : (wmRaw m).length + after.length = l.length := by
    rw [← this, List.length_append]
  have : 0 < (wmRaw m).length := by simp [wmRaw]
  omega

/-- Model of `re.sub` with the wikilink pattern: scan left to right, replace
each non-overlapping leftmost match by `repl`, resume after the match.
Structural recursion on a fuel that `convertChars` fixes to the input length
(each step strictly shortens the input, so the fuel never runs out). -/
def convertCharsAux (repl : WikiMatch → String) : Nat → List Char → List Char
  | 0, _ => []
  | _ + 1, [] => []
  | fuel + 1, c :: rest =>
    match tryWikilink (c :: rest) with
    | some (m, after) => (repl m).data ++ convertCharsAux repl fuel after
    | none => c :: convertCharsAux repl fuel rest

def convertChars (repl : WikiMatch → String) (l : List Char) : List Char :=
  convertCharsAux repl l.length l

/-- The fuel of `convertCharsAux` is irrelevant as long as it covers the
input length. -/
theorem convertCharsAux_fuel (repl : WikiMatch → String) :
    ∀ (f1 f2 : Nat) (l : List Char), l.length ≤ f1 → l.length ≤ f2 →
      convertCharsAux repl f1 l = convertCharsAux repl f2 l := by
  intro f1
  induction f1 with
  | zero =>
    intro f2 l h1 _
    have : l = [] := List.length_eq_zero.mp (Nat.le_zero.mp h1)
    subst this
    cases f2 <;> rfl
  | succ f ih =>
    intro f2 l h1 h2
    match l with
    | [] => cases f2 <;> rfl
    | c :: rest =>
      match f2 with
      | 0 => exact absurd h2 (by simp)
      | f2' + 1 =>
        simp only [convertCharsAux]
        match htw : tryWikilink (c :: rest) with
        | some (m, after) =>
          have hlt := tryWikilink_after_lt htw
          simp only [List.length_cons] at h1 h2 hlt
          dsimp only
          rw [ih f2' after (by omega) (by omega)]
        | none =>
          simp only [List.length_cons] at h1 h2
          dsimp only
          rw [ih f2' rest (by omega) (by omega)]

/-! ## `wikilink_to_mdlink` (main.py lines 241-282) -/

/-- `target.split("/")[-1]`. -/
def lastSlashSeg (t : List Char) : List Char :=
  (t.reverse.takeWhile (· ≠ '/')).reverse

/-- `s.rsplit(".", 1)[0]`: everything before the last dot (the whole string
when there is no dot). -/
def rsplitDot1 (l : List Char) : List Char :=
  let e := l.reverse.takeWhile (· ≠ '.')
  if e.length = l.length then l else (l.reverse.drop (e.length + 1)).reverse

/-- The wikilink resolver.  `current_file.parent.resolve()` is modelled as
`parentPath currentFile`: the caller (`convert_wikilinks_to_markdown_links`)
passes `file_path.resolve()`, an absolute path, and `resolve()` on an
absolute path without symlinks or dot segments is the identity. -/
def wikilink_to_mdlink (m : WikiMatch) (currentFile : PyPath) (noteMap : NoteMap) :
    String :=
  let raw := wmRaw m
  let target0 := pyStrip m.g1
  let anchor0 := m.g2.getD []
  let aliasTxt := m.g4.getD (lastSlashSeg target0)
  -- "Remove anchor from target" (dead for regex-produced tokens, whose
  -- group 1 cannot contain '#', but present in the source)
  let target1 := if target0.contains '#' then target0.takeWhile (· ≠ '#') else target0
  let anchor1 :=
    if target0.contains '#' then
      '#' :: target0.drop ((target0.takeWhile (· ≠ '#')).length + 1)
    else anchor0
  match nmGet noteMap ⟨lastSlashSeg target1⟩ with
  | none => ⟨raw⟩  -- leave wikilink as-is if target not found
  | some entry =>
    let targetPath := withSuffixMd entry
    let base := parentPath currentFile
    let ur : Bool × PyPath :=
      match relativeTo targetPath base with
      | none => (true, targetPath)  -- not a subpath → absolute-from-vault
      | some rp => (rp.segments.countP (· = "..") > 1, rp)
    let linkPath : List Char :=
      if ur.1 then '/' :: posixOf (withSuffixMd entry) else posixOf ur.2
    let encoded := pyQuote (rsplitDot1 (fixFileNameChars linkPath))
    ⟨'[' :: (aliasTxt ++ ']' :: '(' :: (encoded ++ anchor1 ++ [')']))⟩

/-- `convert_wikilinks_to_markdown_links` (main.py lines 285-292); the
theorems below instantiate `filePath` with an absolute path, matching the
`file_path.resolve()` the source passes to the replacement function. -/
def convert_wikilinks_to_markdown_links (markdown : String) (filePath : PyPath)
    (noteMap : NoteMap) : String :=
  ⟨convertChars (fun m => wikilink_to_mdlink m filePath noteMap) markdown.data⟩

/-! ## `get_extra_tags` (main.py lines 295-297): `re.findall(r"[^#\w](#[a-zA-Z/]+)", markdown)` -/

/-- `\w` (the script's text is ASCII; `re` without `re.ASCII` would also
accept non-ASCII word characters). -/
def isWordChar (c : Char) : Bool := c.isAlphanum ∨ c = '_'

/-- The tag-body class `[a-zA-Z/]`. -/
def isTagChar (c : Char) : Bool := c.isAlpha ∨ c = '/'

/-- Model of `re.findall` with the inline-tag pattern: scan left to right;
at each position, a match needs one character that is neither `#` nor a word
character, then `#`, then a greedy nonempty run of `[a-zA-Z/]`; the scan
resumes after each match.  Only group 1 (`#` plus the run) is collected.
Structural recursion on a fuel fixed to the input length by `scanTags`. -/
def scanTagsAux : Nat → List Char → List String
  | 0, _ => []
  | _ + 1, [] => []
  | _ + 1, [_] => []
  | fuel + 1, c :: d :: t =>
    if ¬(c = '#' ∨ isWordChar c) ∧ d = '#' then
      let tag := t.takeWhile isTagChar
      if tag ≠ [] then (⟨'#' :: tag⟩ : String) :: scanTagsAux fuel (t.drop tag.length)
      else scanTagsAux fuel (d :: t)
    else scanTagsAux fuel (d :: t)

def scanTags (l : List Char) : List String :=
  scanTagsAux l.length l

/-- The fuel of `scanTagsAux` is irrelevant as long as it covers the input
length. -/
theorem scanTagsAux_fuel :
    ∀ (f1 f2 : Nat) (l : List Char), l.length ≤ f1 → l.length ≤ f2 →
      scanTagsAux f1 l = scanTagsAux f2 l := by
  intro f1
  induction f1 with
  | zero =>
    intro f2 l h1 _
    have : l = [] := List.length_eq_zero.mp (Nat.le_zero.mp h1)
    subst this
    cases f2 <;> rfl
  | succ f ih =>
    intro f2 l h1 h2
    match l with
    | [] => cases f2 <;> rfl
    | [c] =>
      match f2 with
      | 0 => exact absurd h2 (by simp)
      | f2' + 1 => rfl
    | c :: d :: t =>
      match f2 with
      | 0 => exact absurd h2 (by simp)
      | f2' + 1 =>
        simp only [List.length_cons] at h1 h2
        simp only [scanTagsAux]
        have hdrop : (t.drop (t.takeWhile isTagChar).length).length ≤ t.length := by
          simp
        split
        · split
          · rw [ih f2' (t.drop (t.takeWhile isTagChar).length) (by omega) (by omega)]
          · rw [ih f2' (d :: t) (by simp; omega) (by simp; omega)]
        · rw [ih f2' (d :: t) (by simp; omega) (by simp; omega)]

def get_extra_tags (markdown : String) : List String :=
  scanTags markdown.data

example : get_extra_tags " #tag and #a/b" = ["#tag", "#a/b"] := by decide
example : get_extra_tags "#tag" = [] := by decide
example : get_extra_tags "x\n#tag" = ["#tag"] := by decide
example : get_extra_tags " ##tag" = [] := by decide
example : get_extra_tags " #tag1" = ["#tag"] := by decide
example : get_extra_tags "# Heading" = [] := by decide

/-! ## `filter_tags` (main.py lines 299-311) -/

/-- Python `str.split("/")` (never returns an empty list; splitting the
empty string gives `[""]`). -/
def splitOnSlash : List Char → List (List Char)
  | [] => [[]]
  | c :: t =>
    if c = '/' then [] :: splitOnSlash t
    else
      match splitOnSlash t with
      | [] => [[c]]
      | h :: r => (c :: h) :: r

/-- `(t[1:] if t.startswith("#") else t).split("/")`. -/
def tagSegs (t : String) : List String :=
  let l := if t.data.head? = some '#' then t.data.tail else t.data
  (splitOnSlash l).map fun s => ⟨s⟩

/-- The `course`-depth filter of `filter_tags`: the whole tag is discarded
when its first segment is `course` and it has more than two segments. -/
def tagDropped (t : String) : Bool :=
  ((tagSegs t).headD "" == "course") && decide ((tagSegs t).length > 2)

/-- The script's `filter_tags`.  The source materialises a `set[str]` and
returns `[*res]`; set iteration order is implementation-defined, so the model
uses first-insertion order — the claims below only use membership, which is
order-independent. -/
def filter_tags (tags : List String) : List String :=
  tags.foldl (fun res t =>
    if tagDropped t then res
    else (tagSegs t).foldl (fun r s => if r.contains s then r else r ++ [s]) res) []

example : filter_tags ["course/cs101/section2/extra"] = [] := by decide
example : filter_tags ["course/cs101"] = ["course", "cs101"] := by decide
example : filter_tags ["#a/b", "b"] = ["a", "b"] := by decide

/-! ## `add_front_matter` (main.py lines 144-170) and `yaml.dump` -/

def dumpVal : PyVal → String
  | .s v => v
  | .b true => "true"
  | .b false => "false"

/-- Lexicographic `≤` on strings by code point, as Python compares `str`. -/
def strLeChars : List Char → List Char → Bool
  | [], _ => true
  | _ :: _, [] => false
  | a :: as, b :: bs => if a = b then strLeChars as bs else decide (a < b)

def insertSortedEntry (e : String × PyVal) : PyDict → PyDict
  | [] => [e]
  | f :: rest =>
    if strLeChars e.1.data f.1.data then e :: f :: rest
    else f :: insertSortedEntry e rest

/-- `sorted(mapping.items())` by key (insertion sort; keys are unique). -/
def sortByKey (m : PyDict) : PyDict :=
  m.foldr insertSortedEntry []

/-- The `key: value` lines of a dump, each terminated by `\n`. -/
def dumpLines : PyDict → List Char
  | [] => []
  | e :: rest => (e.1 ++ ": " ++ dumpVal e.2).data ++ '\n' :: dumpLines rest

/-- Model of `yaml.dump` on the scalar-mapping subset the script produces:
keys sorted (PyYAML's default `sort_keys=True`), one `key: value` line each,
ending with a newline. -/
def yaml_dump (m : PyDict) : String :=
  ⟨dumpLines (sortByKey m)⟩

/-- `original_path.rsplit(".", 1)[0]`. -/
def rsplitStem (s : String) : String :=
  ⟨rsplitDot1 s.data⟩

/-- `matter.get("tags", [])`, which the script immediately `.extend`s.
A missing key yields a fresh empty list; a present key holds a scalar in the
modelled YAML subset, and calling `.extend` on a Python scalar raises
`AttributeError`, modelled as `none`. -/
def tagsFromMatter : Option PyVal → Option (List String)
  | none => some []
  | some _ => none

/-- The dictionary-update sequence of `add_front_matter` (main.py lines
156-168): overwrite `title`/`description`/`published`/`date`, extend and
filter the tags, set `tags` only when the filtered list is nonempty, then
`editor` and `dateCreated`.  `none` models the uncaught exception from
calling `.extend` on a non-list `tags` value. -/
def buildMatter (m0 : PyDict) (parsed_tags : List String) (title dateNow : String) :
    Option PyDict :=
  let m1 := dictSet m0 "title" (.s title)
  let m2 := dictSet m1 "description" (.s title)
  let m3 := dictSet m2 "published" (.b true)
  let m4 := dictSet m3 "date" (.s dateNow)
  match tagsFromMatter (dictGet m4 "tags") with
  | none => none
  | some tags =>
    let filtered := filter_tags (tags ++ parsed_tags)
    let m5 := if filtered.length > 0
      then dictSet m4 "tags" (.s (String.intercalate ", " filtered)) else m4
    let m6 := dictSet m5 "editor" (.s "markdown")
    some (dictSet m6 "dateCreated" (.s dateNow))

/-- The front-matter dictionary and converted body computed by
`add_front_matter` before serialization.  `dateNow` is the module-level
`date_now` run timestamp, passed explicitly.  `none` models an uncaught
exception: either `matter["title"] = ...` raising `TypeError` on a
non-mapping front matter, or the `tags` handling raising on a scalar
`tags` value. -/
def add_front_matter_parts (original_text original_path : String) (path : PyPath)
    (noteMap : NoteMap) (dateNow : String) : Option (PyDict × String) :=
  let pm := parse_markdown_with_front_matter original_text
  let conv := convert_wikilinks_to_markdown_links pm.2 path noteMap
  match pm.1 with
  | .dict m0 =>
    (buildMatter m0 (get_extra_tags conv) (rsplitStem original_path) dateNow).map
      fun m => (m, conv)
  | .value _ => none
  | .listv _ => none

/-- `add_front_matter`: `f"---\n{yaml.dump(matter)}---\n\n{converted_link_markdown}"`. -/
def add_front_matter (original_text original_path : String) (path : PyPath)
    (noteMap : NoteMap) (dateNow : String) : Option String :=
  (add_front_matter_parts original_text original_path path noteMap dateNow).map
    fun pr => "---\n" ++ yaml_dump pr.1 ++ "---\n\n" ++ pr.2

/-! ## The per-item dispatch of `copy_folder_recursively` (main.py lines 47-106) -/

/-- `item_name.rsplit(".", 1)[1]`: `none` models the `IndexError` raised when
the name contains no dot (`rsplit` then returns a one-element list). -/
def fileExtLookup (name : String) : Option String :=
  if name.data.contains '.' then
    some ⟨(name.data.reverse.takeWhile (· ≠ '.')).reverse⟩
  else none

/-- The control skeleton of the `for item_name in os.listdir(...)` loop over
the regular files of one directory.  Each successfully dispatched item is
recorded; an `IndexError` from the extension lookup is not an `OSError`, so
the `try/except OSError` wrapped around the whole loop does not catch it:
the loop aborts and the items after the offending one are never processed
(`.error` carries the items processed before the abort). -/
def copy_dir_items : List String → Except (List String) (List String)
  | [] => .ok []
  | n :: rest =>
    match fileExtLookup n with
    | none => .error []
    | some _ =>
      match copy_dir_items rest with
      | .ok l => .ok (n :: l)
      | .error l => .error (n :: l)

example : copy_dir_items ["a.md", "README", "b.md"] = .error ["a.md"] := rfl
example : copy_dir_items ["a.md", "b.png"] = .ok ["a.md", "b.png"] := rfl

/-! ## Helper lemmas -/

/-- The stem the resolver looks up: the last `/`-segment of the stripped
target after the anchor split. -/
def lookupTargetStem (m : WikiMatch) : String :=
  ⟨lastSlashSeg (if (pyStrip m.g1).contains '#'
    then (pyStrip m.g1).takeWhile (· ≠ '#') else pyStrip m.g1)⟩

theorem wikilink_to_mdlink_not_found (m : WikiMatch) (cf : PyPath) (nm : NoteMap)
    (h : nmGet nm (lookupTargetStem m) = none) :
    wikilink_to_mdlink m cf nm = ⟨wmRaw m⟩ := by
  simp only [lookupTargetStem] at h
  simp only [wikilink_to_mdlink]
  rw [h]

theorem convertCharsAux_all_missing (cf : PyPath) :
    ∀ (fuel : Nat) (l : List Char), l.length ≤ fuel →
      convertCharsAux (fun m => wikilink_to_mdlink m cf []) fuel l = l := by
  intro fuel
  induction fuel with
  | zero =>
    intro l h1
    have : l = [] := List.length_eq_zero.mp (Nat.le_zero.mp h1)
    subst this
    rfl
  | succ f ih =>
    intro l h1
    match l with
    | [] => rfl
    | c :: rest =>
      simp only [convertCharsAux]
      match htw : tryWikilink (c :: rest) with
      | some (m, after) =>
        dsimp only
        have hlt := tryWikilink_after_lt htw
        simp only [List.length_cons] at h1 hlt
        rw [wikilink_to_mdlink_not_found m cf [] rfl]
        rw [ih after (by omega)]
        exact tryWikilink_raw htw
      | none =>
        dsimp only
        simp only [List.length_cons] at h1
        rw [ih rest (by omega)]

/-! ## Claim C3 -/

/-- C3: for every wikilink token whose target's last path segment is not a
key of the note index, the resolver returns the original token text
unchanged — the full `[[...]]` source text (`match.group(0)`) is preserved
verbatim, never dropped or replaced with an error marker; in particular a
body scanned against an empty note index is returned textually unchanged. -/
theorem C3_missing_target_fail_soft :
    (∀ (m : WikiMatch) (cf : PyPath) (nm : NoteMap),
        nmGet nm (lookupTargetStem m) = none →
        wikilink_to_mdlink m cf nm = ⟨wmRaw m⟩) ∧
    (∀ (s : String) (cf : PyPath),
        convert_wikilinks_to_markdown_links s cf [] = s) := by
  constructor
  · exact wikilink_to_mdlink_not_found
  · intro s cf
    simp only [convert_wikilinks_to_markdown_links, convertChars]
    rw [convertCharsAux_all_missing cf s.data.length s.data le_rfl]

/-- Witness for C3 at a concrete input: `[[Missing]]` is not in the index and
comes back verbatim. -/
theorem C3_missing_target_fail_soft_witness :
    wikilink_to_mdlink ⟨"Missing".data, none, none⟩ ⟨true, ["a", "b.md"]⟩
      [("Note Two", ⟨false, ["b", "Note Two.md"]⟩)] = "[[Missing]]" := by
  rw [C3_missing_target_fail_soft.1 ⟨"Missing".data, none, none⟩
    ⟨true, ["a", "b.md"]⟩ [("Note Two", ⟨false, ["b", "Note Two.md"]⟩)] (by decide)]
  decide

/-! ## Claim C10 -/

/-- C10: the per-item file dispatch of `copy_folder_recursively` is total
exactly when every regular file name contains a dot: `item_name.rsplit(".",
1)[1]` raises `IndexError` on a dotless name, the surrounding handler
catches only `OSError`, and processing of the directory aborts — the items
after the offending one are never processed (first conjunct), while a
listing of all-dotted names is processed in full (second conjunct). -/
theorem C10_dotless_name_aborts_directory :
    (∀ (pre post : List String) (bad : String),
        (∀ x ∈ pre, '.' ∈ x.data) → '.' ∉ bad.data →
        copy_dir_items (pre ++ bad :: post) = .error pre) ∧
    (∀ items : List String, (∀ x ∈ items, '.' ∈ x.data) →
        copy_dir_items items = .ok items) := by
  constructor
  · intro pre post bad
    induction pre with
    | nil =>
      intro _ h2
      have he : fileExtLookup bad = none := by simp [fileExtLookup, h2]
      simp only [List.nil_append, copy_dir_items, he]
    | cons x xs ih =>
      intro h1 h2
      have hx : '.' ∈ x.data := h1 x (by simp)
      have he : fileExtLookup x =
          some ⟨(x.data.reverse.takeWhile (· ≠ '.')).reverse⟩ := by
        simp [fileExtLookup, hx]
      have ihr := ih (fun y hy => h1 y (List.mem_cons_of_mem _ hy)) h2
      simp only [List.cons_append, copy_dir_items, he, List.append_eq, ihr]
  · intro items
    induction items with
    | nil => intro _; rfl
    | cons x xs ih =>
      intro h1
      have hx : '.' ∈ x.data := h1 x (by simp)
      have he : fileExtLookup x =
          some ⟨(x.data.reverse.takeWhile (· ≠ '.')).reverse⟩ := by
        simp [fileExtLookup, hx]
      have ihr := ih (fun y hy => h1 y (List.mem_cons_of_mem _ hy))
      simp only [copy_dir_items, he, ihr]

/-- Witness for C10: `README` (no dot) aborts the directory after `a.md`,
with `b.md` left unprocessed; an all-dotted listing completes. -/
theorem C10_dotless_name_aborts_directory_witness :
    copy_dir_items ["a.md", "README", "b.md"] = .error ["a.md"] ∧
    copy_dir_items ["x.md", "y.png"] = .ok ["x.md", "y.png"] :=
  ⟨C10_dotless_name_aborts_directory.1 ["a.md"] ["b.md"] "README"
      (by decide) (by decide),
    C10_dotless_name_aborts_directory.2 ["x.md", "y.png"] (by decide)⟩

/-! ## Claim C7 -/

theorem mem_insertNew (r : List String) (x s : String) :
    (s ∈ (if r.contains x then r else r ++ [x])) ↔ s ∈ r ∨ s = x := by
  split
  · rename_i hc
    have hx : x ∈ r := by simpa using hc
    constructor
    · exact Or.inl
    · rintro (h | rfl)
      · exact h
      · exact hx
  · simp [List.mem_append]

theorem nodup_insertNew (r : List String) (x : String) (h : r.Nodup) :
    (if r.contains x then r else r ++ [x]).Nodup := by
  split
  · exact h
  · rename_i hc
    have hx : x ∉ r := by simpa using hc
    simp [List.nodup_append, h, hx]

theorem mem_addSegs (l : List String) :
    ∀ (acc : List String) (s : String),
      s ∈ l.foldl (fun r x => if r.contains x then r else r ++ [x]) acc ↔
        s ∈ acc ∨ s ∈ l := by
  induction l with
  | nil => simp
  | cons x xs ih =>
    intro acc s
    simp only [List.foldl_cons]
    rw [ih, mem_insertNew, List.mem_cons]
    tauto

theorem nodup_addSegs (l : List String) :
    ∀ acc : List String, acc.Nodup →
      (l.foldl (fun r x => if r.contains x then r else r ++ [x]) acc).Nodup := by
  induction l with
  | nil => exact fun _ h => h
  | cons x xs ih =>
    intro acc h
    exact ih _ (nodup_insertNew acc x h)

theorem nodup_filter_tags_aux (ts : List String) :
    ∀ acc : List String, acc.Nodup →
      (ts.foldl (fun res t =>
          if tagDropped t then res
          else (tagSegs t).foldl
            (fun r x => if r.contains x then r else r ++ [x]) res) acc).Nodup := by
  induction ts with
  | nil => exact fun _ h => h
  | cons t ts ih =>
    intro acc h
    simp only [List.foldl_cons]
    by_cases hd : tagDropped t
    · rw [if_pos hd]; exact ih acc h
    · rw [if_neg hd]; exact ih _ (nodup_addSegs _ acc h)

theorem mem_filter_tags_aux (ts : List String) :
    ∀ (acc : List String) (s : String),
      s ∈ ts.foldl (fun res t =>
          if tagDropped t then res
          else (tagSegs t).foldl
            (fun r x => if r.contains x then r else r ++ [x]) res) acc ↔
        s ∈ acc ∨ ∃ t ∈ ts, tagDropped t = false ∧ s ∈ tagSegs t := by
  induction ts with
  | nil => simp
  | cons t ts ih =>
    intro acc s
    simp only [List.foldl_cons]
    by_cases hd : tagDropped t
    · rw [if_pos hd, ih]
      constructor
      · rintro (h | ⟨t', ht', hk, hs⟩)
        · exact Or.inl h
        · exact Or.inr ⟨t', List.mem_cons_of_mem _ ht', hk, hs⟩
      · rintro (h | ⟨t', ht', hk, hs⟩)
        · exact Or.inl h
        · rcases List.mem_cons.mp ht' with rfl | ht''
          · rw [hd] at hk; cases hk
          · exact Or.inr ⟨t', ht'', hk, hs⟩
    · rw [if_neg hd, ih, mem_addSegs]
      have hd' : tagDropped t = false := by
        cases h : tagDropped t
        · rfl
        · exact absurd h hd
      constructor
      · rintro ((h | h) | ⟨t', ht', hk, hs⟩)
        · exact Or.inl h
        · exact Or.inr ⟨t, List.mem_cons_self .., hd', h⟩
        · exact Or.inr ⟨t', List.mem_cons_of_mem _ ht', hk, hs⟩
      · rintro (h | ⟨t', ht', hk, hs⟩)
        · exact Or.inl (Or.inl h)
        · rcases List.mem_cons.mp ht' with rfl | ht''
          · exact Or.inl (Or.inr hs)
          · exact Or.inr ⟨t', ht'', hk, hs⟩

/-- C7: `filter_tags` strips a leading `#` from each tag, splits it on `/`,
entirely drops a tag whose first segment is `course` and which has more than
two segments, and otherwise adds every individual segment to a deduplicated
result (membership characterization plus `Nodup`); in particular
`course/cs101/section2/extra` contributes nothing and `course/cs101`
contributes exactly `course` and `cs101`. -/
theorem C7_filter_tags_spec :
    (∀ (ts : List String) (s : String),
        s ∈ filter_tags ts ↔ ∃ t ∈ ts, tagDropped t = false ∧ s ∈ tagSegs t) ∧
    (∀ ts : List String, (filter_tags ts).Nodup) ∧
    filter_tags ["course/cs101/section2/extra"] = [] ∧
    (∀ s : String, s ∈ filter_tags ["course/cs101"] ↔ s = "course" ∨ s = "cs101") := by
  refine ⟨?_, ?_, rfl, ?_⟩
  · intro ts s
    rw [filter_tags, mem_filter_tags_aux]
    simp
  · intro ts
    exact nodup_filter_tags_aux ts [] List.nodup_nil
  · intro s
    rw [show filter_tags ["course/cs101"] = ["course", "cs101"] from rfl]
    simp

/-! ## Claim C2 -/

theorem dictGet_dictSet_self (m : PyDict) (k : String) (v : PyVal) :
    dictGet (dictSet m k v) k = some v := by
  induction m with
  | nil => simp [dictSet, dictGet]
  | cons e rest ih =>
    by_cases he : e.1 = k
    · simp [dictSet, dictGet, he]
    · simp [dictSet, dictGet, he, ih]

theorem dictGet_dictSet_ne (m : PyDict) (k k' : String) (v : PyVal)
    (h : k' ≠ k) : dictGet (dictSet m k' v) k = dictGet m k := by
  induction m with
  | nil => simp [dictSet, dictGet, h]
  | cons e rest ih =>
    by_cases he : e.1 = k'
    · simp [dictSet, dictGet, he, h]
    · simp only [dictSet, if_neg he, dictGet]
      by_cases hek : e.1 = k
      · simp [hek]
      · simp [hek, ih]

theorem dictGet_ite_tags (c : Prop) [Decidable c] (mm : PyDict) (v : PyVal)
    (k : String) (hk : "tags" ≠ k) :
    dictGet (if c then dictSet mm "tags" v else mm) k = dictGet mm k := by
  split
  · exact dictGet_dictSet_ne _ _ _ _ hk
  · rfl

theorem buildMatter_fields (m0 : PyDict) (pt : List String) (title d : String)
    (m : PyDict) (h : buildMatter m0 pt title d = some m) :
    dictGet m "title" = some (.s title) ∧
    dictGet m "description" = some (.s title) ∧
    dictGet m "published" = some (.b true) := by
  simp only [buildMatter] at h
  rcases htf : tagsFromMatter (dictGet (dictSet (dictSet (dictSet (dictSet m0
      "title" (.s title)) "description" (.s title)) "published" (.b true))
      "date" (.s d)) "tags") with _ | tags
  · rw [htf] at h; cases h
  · rw [htf] at h
    dsimp only at h
    injection h with h
    subst h
    refine ⟨?_, ?_, ?_⟩
    · rw [dictGet_dictSet_ne _ _ _ _ (by decide), dictGet_dictSet_ne _ _ _ _ (by decide),
        dictGet_ite_tags _ _ _ _ (by decide), dictGet_dictSet_ne _ _ _ _ (by decide),
        dictGet_dictSet_ne _ _ _ _ (by decide), dictGet_dictSet_ne _ _ _ _ (by decide),
        dictGet_dictSet_self]
    · rw [dictGet_dictSet_ne _ _ _ _ (by decide), dictGet_dictSet_ne _ _ _ _ (by decide),
        dictGet_ite_tags _ _ _ _ (by decide), dictGet_dictSet_ne _ _ _ _ (by decide),
        dictGet_dictSet_ne _ _ _ _ (by decide), dictGet_dictSet_self]
    · rw [dictGet_dictSet_ne _ _ _ _ (by decide), dictGet_dictSet_ne _ _ _ _ (by decide),
        dictGet_ite_tags _ _ _ _ (by decide), dictGet_dictSet_ne _ _ _ _ (by decide),
        dictGet_dictSet_self]

/-- C2, corrected: the claim as frozen requires `title`/`description` to be
the *sanitized* stem, but the source sets `title =
original_path.rsplit(".", 1)[0]`, the raw stem, without applying
`fix_file_name`: for `Note One.md` the resulting title is `Note One` while
the sanitized stem is `note-one`. -/
theorem C2_title_unsanitized_counterexample :
    (add_front_matter_parts "hello" "Note One.md" ⟨true, ["v", "Note One.md"]⟩
        [] "D").map (fun pr => dictGet pr.1 "title") =
      some (some (.s "Note One")) ∧
    fix_file_name "Note One" = "note-one" ∧
    ("Note One" : String) ≠ "note-one" := by
  refine ⟨by decide, by decide, by decide⟩

/-- C2, amended: for every document that `add_front_matter` successfully
assembles, the resulting front matter has `title` and `description` both
equal to the *raw* file stem `original_path.rsplit(".", 1)[0]` (not the
sanitized stem), and `published` forced to `true`, overriding any
pre-existing values from the source front matter. -/
theorem C2_front_matter_overrides (original_text original_path : String)
    (path : PyPath) (nm : NoteMap) (dateNow : String) (m : PyDict) (conv : String)
    (h : add_front_matter_parts original_text original_path path nm dateNow =
      some (m, conv)) :
    dictGet m "title" = some (.s (rsplitStem original_path)) ∧
    dictGet m "description" = some (.s (rsplitStem original_path)) ∧
    dictGet m "published" = some (.b true) := by
  simp only [add_front_matter_parts] at h
  rcases hq : (parse_markdown_with_front_matter original_text).1 with m0 | v | items <;>
    rw [hq] at h
  · simp only [Option.map_eq_some'] at h
    obtain ⟨mm, hbm, heq⟩ := h
    have hm : mm = m := congrArg Prod.fst heq
    exact hm ▸ buildMatter_fields _ _ _ _ _ hbm
  · simp at h
  · simp at h

/-- Witness for C2 (amended) at a concrete input. -/
theorem C2_front_matter_overrides_witness :
    dictGet [("title", PyVal.s "Note One"), ("description", PyVal.s "Note One"),
      ("published", PyVal.b true), ("date", PyVal.s "D"),
      ("editor", PyVal.s "markdown"), ("dateCreated", PyVal.s "D")] "title" =
      some (.s (rsplitStem "Note One.md")) :=
  (C2_front_matter_overrides "hello" "Note One.md" ⟨true, ["v", "Note One.md"]⟩
    [] "D"
    [("title", PyVal.s "Note One"), ("description", PyVal.s "Note One"),
      ("published", PyVal.b true), ("date", PyVal.s "D"),
      ("editor", PyVal.s "markdown"), ("dateCreated", PyVal.s "D")]
    "hello" (by decide)).1

/-! ## Claim C5 -/

/-- C5 counterexample: the claim as frozen says a block that does not load as
a key/value mapping leaves empty metadata with "the entire original text as
body"; but a YAML-valid non-mapping block loads WITHOUT raising, the source
strips it and returns the bare value as metadata (`"---\nhello\n---\nrest"`
gives metadata `"hello"` and body `"rest"`); and even on genuine failure
(`"a\n"`, no front matter) the body is `"\n".join(lines)`, which drops a
trailing line terminator, so it is not always the entire original text. -/
theorem C5_fail_soft_counterexample :
    parse_markdown_with_front_matter "---\nhello\n---\nrest" =
      (.value (.s "hello"), "rest") ∧
    FrontMatter.value (.s "hello") ≠ .dict [] ∧
    ("rest" : String) ≠ "---\nhello\n---\nrest" ∧
    parse_markdown_with_front_matter "a\n" = (.dict [], "a") ∧
    ("a" : String) ≠ "a\n" := by
  refine ⟨by decide, by decide, by decide, by decide, by decide⟩

/-- C5, amended: the splitter degrades to empty metadata only on a structural
failure or a genuine YAML error, and even then the body is the original
text's lines rejoined with `\n` (equal to the original text exactly when it
has no trailing line terminator) — (1) no opening `---`; (2) no closing
`---`; (3) a loaded non-mapping scalar block is stripped from the body and
returned as the bare metadata value; (4) likewise a loaded block sequence;
(5) an all-blank block yields the empty-but-present mapping with the
remaining text as body, not a parse failure; (6) a genuinely malformed block
(a mapping line followed by a bare scalar) degrades fail-soft; (7)-(8) the
empty block `---\n---` and the empty text. -/
theorem C5_fail_soft_degrades :
    (∀ (s : String) (l0 : List Char) (rest : List (List Char)),
        splitLinesChars s.data = l0 :: rest → pyStrip l0 ≠ "---".data →
        parse_markdown_with_front_matter s =
          (.dict [], ⟨joinNL (splitLinesChars s.data)⟩)) ∧
    (∀ (s : String) (l0 : List Char) (rest : List (List Char)),
        splitLinesChars s.data = l0 :: rest → pyStrip l0 = "---".data →
        findCloseDelim rest = none →
        parse_markdown_with_front_matter s =
          (.dict [], ⟨joinNL (splitLinesChars s.data)⟩)) ∧
    (∀ (s : String) (l0 : List Char) (rest pre post : List (List Char))
        (v : PyVal),
        splitLinesChars s.data = l0 :: rest → pyStrip l0 = "---".data →
        findCloseDelim rest = some (pre, post) →
        miniSafeLoad (joinNL pre) = .scalar v →
        parse_markdown_with_front_matter s = (.value v, ⟨joinNL post⟩)) ∧
    (∀ (s : String) (l0 : List Char) (rest pre post : List (List Char))
        (items : List PyVal),
        splitLinesChars s.data = l0 :: rest → pyStrip l0 = "---".data →
        findCloseDelim rest = some (pre, post) →
        miniSafeLoad (joinNL pre) = .seq items →
        parse_markdown_with_front_matter s = (.listv items, ⟨joinNL post⟩)) ∧
    (∀ (s : String) (l0 : List Char) (rest pre post : List (List Char)),
        splitLinesChars s.data = l0 :: rest → pyStrip l0 = "---".data →
        findCloseDelim rest = some (pre, post) →
        miniSafeLoad (joinNL pre) = .nullDoc →
        parse_markdown_with_front_matter s = (.dict [], ⟨joinNL post⟩)) ∧
    parse_markdown_with_front_matter "---\na: b\nplain\n---\nrest" =
      (.dict [], "---\na: b\nplain\n---\nrest") ∧
    parse_markdown_with_front_matter "---\n---\nx" = (.dict [], "x") ∧
    parse_markdown_with_front_matter "" = (.dict [], "") := by
  refine ⟨?_, ?_, ?_, ?_, ?_, by decide, by decide, by decide⟩
  · intro s l0 rest hsplit h2
    simp only [parse_markdown_with_front_matter]
    rw [hsplit]
    dsimp only
    rw [if_neg h2]
  · intro s l0 rest hsplit h2 h3
    simp only [parse_markdown_with_front_matter]
    rw [hsplit]
    dsimp only
    rw [if_pos h2, h3]
  · intro s l0 rest pre post v hsplit h2 h3 h4
    simp only [parse_markdown_with_front_matter]
    rw [hsplit]
    dsimp only
    rw [if_pos h2, h3]
    dsimp only
    rw [h4]
  · intro s l0 rest pre post items hsplit h2 h3 h4
    simp only [parse_markdown_with_front_matter]
    rw [hsplit]
    dsimp only
    rw [if_pos h2, h3]
    dsimp only
    rw [h4]
  · intro s l0 rest pre post hsplit h2 h3 h4
    simp only [parse_markdown_with_front_matter]
    rw [hsplit]
    dsimp only
    rw [if_pos h2, h3]
    dsimp only
    rw [h4]

/-- Witness for C5 (amended): a loaded plain-scalar block is stripped and
returned as the metadata value. -/
theorem C5_fail_soft_degrades_witness :
    parse_markdown_with_front_matter "---\n hello \n---\nrest" =
      (.value (.s "hello"), "rest") := by
  rw [C5_fail_soft_degrades.2.2.1 "---\n hello \n---\nrest" "---".data
    [" hello ".data, "---".data, "rest".data] [" hello ".data] ["rest".data]
    (.s "hello") (by decide) (by decide) (by decide) (by decide)]
  decide

/-! ## Claim C4 -/

theorem splitLinesChars_ne_nil {l : List Char} (h : l ≠ []) :
    splitLinesChars l ≠ [] := by
  match l with
  | [] => exact absurd rfl h
  | c :: rest =>
    simp only [splitLinesChars]
    by_cases hc : c = '\n'
    · rw [if_pos hc]; simp
    · rw [if_neg hc]
      match splitLinesChars rest with
      | [] => simp
      | h :: t => simp

/-- Splitting at an explicit line break decomposes `splitlines`. -/
theorem splitLinesChars_append (a b : List Char) :
    splitLinesChars (a ++ '\n' :: b) =
      splitLinesChars (a ++ ['\n']) ++ splitLinesChars b := by
  induction a with
  | nil =>
    simp only [List.nil_append, splitLinesChars, if_pos rfl]
    rfl
  | cons c a' ih =>
    simp only [List.cons_append, splitLinesChars, List.append_eq]
    by_cases hc : c = '\n'
    · rw [if_pos hc, if_pos hc, ih]
      rfl
    · rw [if_neg hc, if_neg hc, ih]
      have hne : splitLinesChars (a' ++ ['\n']) ≠ [] :=
        splitLinesChars_ne_nil (by simp)
      match hsp : splitLinesChars (a' ++ ['\n']) with
      | [] => exact absurd hsp hne
      | h :: t => rfl

theorem findCloseDelim_append (pre post : List (List Char)) (d : List Char)
    (hno : ∀ x ∈ pre, pyStrip x ≠ "---".data) (hd : pyStrip d = "---".data) :
    findCloseDelim (pre ++ d :: post) = some (pre, post) := by
  induction pre with
  | nil =>
    simp only [List.nil_append, findCloseDelim, if_pos hd]
  | cons x xs ih =>
    have hx : pyStrip x ≠ "---".data := hno x (by simp)
    simp only [List.cons_append, findCloseDelim, if_neg hx, List.append_eq]
    rw [ih (fun y hy => hno y (List.mem_cons_of_mem _ hy))]

/-- Every dump either is empty or ends with a newline. -/
theorem dumpLines_shape (m : PyDict) :
    dumpLines m = [] ∨ ∃ p, dumpLines m = p ++ ['\n'] := by
  induction m with
  | nil => exact Or.inl rfl
  | cons e rest ih =>
    right
    rcases ih with h | ⟨p, h⟩
    · exact ⟨(e.1 ++ ": " ++ dumpVal e.2).data, by simp [dumpLines, h]⟩
    · exact ⟨(e.1 ++ ": " ++ dumpVal e.2).data ++ '\n' :: p, by simp [dumpLines, h]⟩

/-- The line structure of an assembled document
`"---\n" ++ D ++ "---\n\n" ++ B` when `D` is empty or newline-terminated. -/
theorem splitLines_assembled (D B : String)
    (hD : D.data = [] ∨ ∃ p, D.data = p ++ ['\n']) :
    splitLinesChars ("---\n" ++ D ++ "---\n\n" ++ B).data =
      "---".data :: (splitLinesChars D.data ++
        "---".data :: [] :: splitLinesChars B.data) := by
  have hdata : ("---\n" ++ D ++ "---\n\n" ++ B).data =
      "---".data ++ '\n' :: (D.data ++ ("---".data ++ '\n' :: '\n' :: B.data)) := by
    simp [String.data_append]
  rw [hdata, splitLinesChars_append]
  have h1 : splitLinesChars ("---".data ++ ['\n']) = ["---".data] := by decide
  rw [h1]
  have h2 : splitLinesChars ("---".data ++ '\n' :: ('\n' :: B.data)) =
      "---".data :: [] :: splitLinesChars B.data := by
    rw [splitLinesChars_append, h1]
    simp only [List.cons_append, List.nil_append]
    rw [show splitLinesChars ('\n' :: B.data) = [] :: splitLinesChars B.data from by
      simp [splitLinesChars]]
  rcases hD with h | ⟨p, h⟩
  · rw [h]
    simp only [List.nil_append]
    rw [h2, show splitLinesChars ([] : List Char) = [] from rfl]
    rfl
  · rw [h, List.append_assoc, show (['\n'] : List Char) ++
      ("---".data ++ '\n' :: '\n' :: B.data) =
      '\n' :: ("---".data ++ '\n' :: '\n' :: B.data) from rfl]
    rw [splitLinesChars_append, h2, ← h]
    rfl

/-- Parsing an assembled document whose metadata dump has no `---`-stripping
line and loads back successfully. -/
theorem parse_assembled (D B : String)
    (hD : D.data = [] ∨ ∃ p, D.data = p ++ ['\n'])
    (hno : ∀ x ∈ splitLinesChars D.data, pyStrip x ≠ "---".data)
    (fm : PyDict)
    (hload : miniSafeLoad (joinNL (splitLinesChars D.data)) = .mapping fm) :
    parse_markdown_with_front_matter ("---\n" ++ D ++ "---\n\n" ++ B) =
      (.dict fm, ⟨joinNL ([] :: splitLinesChars B.data)⟩) := by
  simp only [parse_markdown_with_front_matter]
  rw [splitLines_assembled D B hD]
  dsimp only
  rw [if_pos (by decide)]
  rw [findCloseDelim_append _ _ _ hno (by decide)]
  dsimp only
  rw [hload]

/-- C4, corrected: the claim as frozen says the round trip recovers the body
textually; in fact the blank separator line after the closing delimiter is
glued onto the body, so the recovered body is `"\n" ++ body` (here:
`"\nhello"`, not `"hello"`). -/
theorem C4_round_trip_counterexample :
    (add_front_matter "hello" "n.md" ⟨true, ["v", "n.md"]⟩ [] "D").map
      (fun doc => (parse_markdown_with_front_matter doc).2) = some "\nhello" ∧
    ("\nhello" : String) ≠ "hello" := by
  refine ⟨by decide, by decide⟩

/-- C4, amended: splitting a document assembled by `add_front_matter`
recovers the resolved-link body up to line re-joining: the result is the
blank separator line plus the body's lines rejoined with `\n` — that is,
`"\n" ++ body` for a body that is newline-free or `\n`-terminated-free, and
in general `joinNL ([] :: splitlines body)`; the front matter itself is
regenerated from the dump, not preserved verbatim. -/
theorem C4_round_trip_body (original_text original_path : String) (path : PyPath)
    (nm : NoteMap) (dateNow : String) (m : PyDict) (conv doc : String)
    (hparts : add_front_matter_parts original_text original_path path nm dateNow =
      some (m, conv))
    (hdoc : add_front_matter original_text original_path path nm dateNow = some doc)
    (hno : ∀ x ∈ splitLinesChars (yaml_dump m).data, pyStrip x ≠ "---".data)
    (fm : PyDict)
    (hload : miniSafeLoad (joinNL (splitLinesChars (yaml_dump m).data)) = .mapping fm) :
    (parse_markdown_with_front_matter doc).2 =
      ⟨joinNL ([] :: splitLinesChars conv.data)⟩ := by
  have hdoc' : doc = "---\n" ++ yaml_dump m ++ "---\n\n" ++ conv := by
    rw [add_front_matter, hparts] at hdoc
    simpa using hdoc.symm
  rw [hdoc', parse_assembled (yaml_dump m) conv
    (by rw [yaml_dump]; exact dumpLines_shape _) hno fm hload]

/-- Witness for C4 (amended) at a concrete input. -/
theorem C4_round_trip_body_witness :
    (parse_markdown_with_front_matter
      ("---\ndate: D\ndateCreated: D\ndescription: n\neditor: markdown\n" ++
        "published: true\ntitle: n\n---\n\nhello")).2 = "\nhello" := by
  rw [C4_round_trip_body "hello" "n.md" ⟨true, ["v", "n.md"]⟩ [] "D"
    [("title", PyVal.s "n"), ("description", PyVal.s "n"),
      ("published", PyVal.b true), ("date", PyVal.s "D"),
      ("editor", PyVal.s "markdown"), ("dateCreated", PyVal.s "D")]
    "hello"
    ("---\ndate: D\ndateCreated: D\ndescription: n\neditor: markdown\n" ++
      "published: true\ntitle: n\n---\n\nhello")
    (by decide) (by decide) (by decide)
    [("date", PyVal.s "D"), ("dateCreated", PyVal.s "D"),
      ("description", PyVal.s "n"), ("editor", PyVal.s "markdown"),
      ("published", PyVal.b true), ("title", PyVal.s "n")]
    (by decide)]
  decide

/-! ## Claim C8 -/

/-- The word-or-slash class of the *claim's* description of the tag body. -/
def isSpecTagChar (c : Char) : Bool := isWordChar c ∨ c = '/'

/-- Modelled from the spec: the matcher the claim describes — a `#` token at
start-of-context *or* immediately preceded by a non-word, non-`#` character,
followed by one or more word or `/` characters.  Written only to compare the
claim's described behavior against `get_extra_tags`. -/
def claimTagExtractAux : Nat → Bool → List Char → List String
  | 0, _, _ => []
  | _ + 1, _, [] => []
  | fuel + 1, ok, c :: t =>
    if ok ∧ c = '#' then
      let tag := t.takeWhile isSpecTagChar
      if tag ≠ [] then
        (⟨'#' :: tag⟩ : String) :: claimTagExtractAux fuel false (t.drop tag.length)
      else claimTagExtractAux fuel (¬(c = '#' ∨ isWordChar c)) t
    else claimTagExtractAux fuel (¬(c = '#' ∨ isWordChar c)) t

def claimTagExtract (l : List Char) : List String :=
  claimTagExtractAux l.length true l

/-- C8, corrected: the claim as frozen says a `#` token at start-of-context
is extracted; the source regex `[^#\w](#[a-zA-Z/]+)` requires a consumed
preceding character, so `"#tag"` at the very start of the body yields
nothing, while the claim's described matcher extracts `#tag`. -/
theorem C8_start_of_context_counterexample :
    get_extra_tags "#tag" = [] ∧
    claimTagExtract "#tag".data = ["#tag"] ∧
    ([] : List String) ≠ ["#tag"] := by
  refine ⟨by decide, by decide, by decide⟩

theorem scanTagsAux_sound :
    ∀ (fuel : Nat) (l : List Char) (t : String), t ∈ scanTagsAux fuel l →
      ∃ body, t = (⟨'#' :: body⟩ : String) ∧ body ≠ [] ∧ ∀ c ∈ body, isTagChar c := by
  intro fuel
  induction fuel with
  | zero => intro l t ht; cases ht
  | succ f ih =>
    intro l t ht
    match l with
    | [] => cases ht
    | [c] => cases ht
    | c :: d :: rest =>
      simp only [scanTagsAux] at ht
      split at ht
      · split at ht
        · rename_i hcls htag
          rcases List.mem_cons.mp ht with rfl | hmem
          · refine ⟨rest.takeWhile isTagChar, rfl, htag, ?_⟩
            intro c hc
            exact List.mem_takeWhile_imp hc
          · exact ih _ _ hmem
        · exact ih _ _ ht
      · exact ih _ _ ht

/-- C8, amended: every extracted tag is `#` followed by a nonempty run of
ASCII letters or `/` (digits and underscores end a tag); a `#` token needs a
preceding non-word, non-`#` character, so a tag at the very start of the
text is not matched, a doubled `#` is never matched, and a word character
before `#` blocks a match; a newline is an acceptable preceding character,
so a line-initial `#tag` *is* extracted — headings escape extraction only
through the space that follows their `#`. -/
theorem C8_inline_tag_extraction :
    (∀ (s : String) (t : String), t ∈ get_extra_tags s →
        ∃ body, t = (⟨'#' :: body⟩ : String) ∧ body ≠ [] ∧ ∀ c ∈ body, isTagChar c) ∧
    get_extra_tags "#tag" = [] ∧
    get_extra_tags "x\n#tag" = ["#tag"] ∧
    get_extra_tags " ##tag" = [] ∧
    get_extra_tags "a#tag" = [] ∧
    get_extra_tags " #tag1" = ["#tag"] ∧
    get_extra_tags "# Heading" = [] := by
  refine ⟨?_, by decide, by decide, by decide, by decide, by decide, by decide⟩
  intro s t ht
  exact scanTagsAux_sound _ _ _ ht

/-- Witness for C8 (amended): the soundness conjunct applied to the concrete
extraction from `" #ab"`. -/
theorem C8_inline_tag_extraction_witness :
    ∃ body, ("#ab" : String) = (⟨'#' :: body⟩ : String) ∧ body ≠ [] ∧
      ∀ c ∈ body, isTagChar c :=
  C8_inline_tag_extraction.1 " #ab" "#ab" (by decide)

/-! ## Claim C1 -/

theorem withSuffixMd_absolute (p : PyPath) :
    (withSuffixMd p).absolute = p.absolute := by
  simp only [withSuffixMd]
  split <;> rfl

theorem head?_append_of_ne_nil {l1 l2 : List Char} (h : l1 ≠ []) :
    (l1 ++ l2).head? = l1.head? := by
  cases l1 with
  | nil => exact absurd rfl h
  | cons c t => rfl

theorem replaceSDS_cons_slash (z : List Char) :
    replaceSDS ('/' :: z) = '/' :: replaceSDS z := rfl

theorem lowerAndDashes_cons_slash (y : List Char) :
    lowerAndDashes ('/' :: y) = '/' :: lowerAndDashes y := by
  simp only [lowerAndDashes, pyLower, List.map_cons]
  rw [show pyLowerChar '/' = '/' from rfl, replaceSDS_cons_slash]
  rfl

/-- A nonempty `dropWhile` keeps the last element. -/
theorem getLast?_dropWhile {p : Char → Bool} {l : List Char}
    (h : l.dropWhile p ≠ []) : (l.dropWhile p).getLast? = l.getLast? := by
  obtain ⟨t, ht⟩ := List.dropWhile_suffix (l := l) p
  conv_rhs => rw [← ht]
  exact (List.getLast?_append_of_ne_nil t h).symm

/-- A nonempty `drop` keeps the last element. -/
theorem getLast?_drop {n : Nat} {l : List Char}
    (h : l.drop n ≠ []) : (l.drop n).getLast? = l.getLast? := by
  obtain ⟨t, ht⟩ := List.drop_suffix n l
  conv_rhs => rw [← ht]
  exact (List.getLast?_append_of_ne_nil t h).symm

/-- Splitting `/`-headed input: the head component keeps its leading slash
and the tail component is slash-free. -/
theorem pySplitPath_slash (x : List Char) :
    (pySplitPath ('/' :: x)).1.head? = some '/' ∧
    (∀ c ∈ (pySplitPath ('/' :: x)).2, c ≠ '/') := by
  have hmemtw : ∀ c ∈ ('/' :: x).reverse.takeWhile (fun c => c ≠ '/'), c ≠ '/' := by
    intro c hc
    simpa using List.mem_takeWhile_imp hc
  have hlt : (('/' :: x).reverse.takeWhile (fun c => c ≠ '/')).length <
      ('/' :: x).reverse.length := by
    rcases Nat.lt_or_ge ((('/' :: x).reverse.takeWhile (fun c => c ≠ '/')).length)
      (('/' :: x).reverse.length) with h | h
    · exact h
    · exfalso
      have heq : (('/' :: x).reverse.takeWhile (fun c => c ≠ '/')).length =
          ('/' :: x).reverse.length :=
        Nat.le_antisymm (List.takeWhile_prefix _).length_le h
      have hfull := (List.takeWhile_prefix
        (l := ('/' :: x).reverse) (fun c => c ≠ '/')).eq_of_length heq
      have hsl : ('/' : Char) ∈ ('/' :: x).reverse.takeWhile (fun c => c ≠ '/') := by
        rw [hfull]
        simp
      exact hmemtw '/' hsl rfl
  have hdropne : ('/' :: x).reverse.drop
      ((('/' :: x).reverse.takeWhile (fun c => c ≠ '/')).length) ≠ [] := by
    intro hnil
    have := congrArg List.length hnil
    simp only [List.length_drop, List.length_nil] at this
    omega
  have hdlast : (('/' :: x).reverse.drop
      ((('/' :: x).reverse.takeWhile (fun c => c ≠ '/')).length)).getLast? =
      some '/' := by
    rw [getLast?_drop hdropne, List.getLast?_reverse]
    rfl
  have hhead : ((('/' :: x).reverse.drop
      ((('/' :: x).reverse.takeWhile (fun c => c ≠ '/')).length)).reverse).head? =
      some '/' := by
    rw [List.head?_reverse]
    exact hdlast
  constructor
  · simp only [pySplitPath]
    split
    · rename_i hcond
      obtain ⟨-, hany⟩ := hcond
      have hdwne : (('/' :: x).reverse.drop
          ((('/' :: x).reverse.takeWhile (fun c => c ≠ '/')).length)).reverse.reverse.dropWhile
          (fun c => c = '/') ≠ [] := by
        intro hnil
        rcases List.any_eq_true.mp hany with ⟨c, hc, hcne⟩
        have hcmem : c ∈ (('/' :: x).reverse.drop
            ((('/' :: x).reverse.takeWhile (fun c => c ≠ '/')).length)).reverse.reverse := by
          rw [List.reverse_reverse]
          exact List.mem_reverse.mp hc
        have hall := List.dropWhile_eq_nil_iff.mp hnil c hcmem
        simp only [decide_eq_true_eq] at hall hcne
        exact hcne hall
      rw [List.head?_reverse, getLast?_dropWhile hdwne, List.reverse_reverse]
      exact hdlast
    · exact hhead
  · intro c hc
    have : c ∈ ('/' :: x).reverse.takeWhile (fun c => c ≠ '/') := by
      simp only [pySplitPath] at hc
      split at hc <;> simpa using hc
    exact hmemtw c this

theorem pySplitext_append (l : List Char) :
    (pySplitext l).1 ++ (pySplitext l).2 = l := by
  have hsplit := takeWhile_append_drop (fun c => c ≠ '.' ∧ c ≠ '/') l.reverse
  simp only [pySplitext]
  rcases hdrop : l.reverse.drop
      ((l.reverse.takeWhile fun c => c ≠ '.' ∧ c ≠ '/').length) with _ | ⟨c, restRev⟩
  · simp
  · dsimp only
    split
    · split
      · rename_i hc _
        rw [hdrop] at hsplit
        subst hc
        conv_rhs => rw [← List.reverse_reverse l, ← hsplit]
        simp [List.reverse_append]
      · simp
    · simp

/-- `fix_file_name` keeps a leading `/`. -/
theorem fixFileNameChars_slash_head (x : List Char) :
    (fixFileNameChars ('/' :: x)).head? = some '/' := by
  obtain ⟨h1, h2⟩ := pySplitPath_slash x
  simp only [fixFileNameChars]
  have hfns : (((pySplitext (pySplitPath ('/' :: x)).2).1.filter (· ≠ '.')) ++
      (pySplitext (pySplitPath ('/' :: x)).2).2).head? ≠ some '/' := by
    have hsub : ∀ c ∈ ((pySplitext (pySplitPath ('/' :: x)).2).1.filter (· ≠ '.')) ++
        (pySplitext (pySplitPath ('/' :: x)).2).2, c ≠ '/' := by
      intro c hc
      rcases List.mem_append.mp hc with h | h
      · exact h2 c (by
          rw [← pySplitext_append (pySplitPath ('/' :: x)).2]
          exact List.mem_append.mpr (Or.inl (List.mem_of_mem_filter h)))
      · exact h2 c (by
          rw [← pySplitext_append (pySplitPath ('/' :: x)).2]
          exact List.mem_append.mpr (Or.inr h))
    cases hf : ((pySplitext (pySplitPath ('/' :: x)).2).1.filter (· ≠ '.')) ++
        (pySplitext (pySplitPath ('/' :: x)).2).2 with
    | nil => simp
    | cons a b =>
      have ha : a ≠ '/' := hsub a (by rw [hf]; simp)
      simp [ha]
  have ha : (pySplitPath ('/' :: x)).1 ≠ [] := by
    intro h
    rw [h] at h1
    cases h1
  have hj : (pyJoin (pySplitPath ('/' :: x)).1
      (((pySplitext (pySplitPath ('/' :: x)).2).1.filter (· ≠ '.')) ++
        (pySplitext (pySplitPath ('/' :: x)).2).2)).head? = some '/' := by
    simp only [pyJoin]
    split
    · exact absurd ‹_› hfns
    · split
      · rw [head?_append_of_ne_nil ha]; exact h1
      · rw [head?_append_of_ne_nil ha]; exact h1
  rcases hjj : pyJoin (pySplitPath ('/' :: x)).1
      (((pySplitext (pySplitPath ('/' :: x)).2).1.filter (· ≠ '.')) ++
        (pySplitext (pySplitPath ('/' :: x)).2).2) with _ | ⟨c, rest⟩
  · rw [hjj] at hj; cases hj
  · rw [hjj] at hj
    have hc : c = '/' := by simpa using hj
    subst hc
    rw [lowerAndDashes_cons_slash]
    rfl

/-- `rsplit(".", 1)[0]` keeps a leading `/`. -/
theorem rsplitDot1_slash_head {l : List Char} (h : l.head? = some '/') :
    (rsplitDot1 l).head? = some '/' := by
  match l with
  | [] => cases h
  | c :: y =>
    have hc : c = '/' := by simpa using h
    subst hc
    have hrev : ('/' :: y).reverse = y.reverse ++ ['/'] := by simp
    have htw : ('/' :: y).reverse.takeWhile (fun c => c ≠ '.') =
        if (y.reverse.takeWhile (fun c => c ≠ '.')).length = y.reverse.length
        then y.reverse ++ ['/'] else y.reverse.takeWhile (fun c => c ≠ '.') := by
      rw [hrev, List.takeWhile_append]
      split
      · rw [show (['/'] : List Char).takeWhile (fun c => c ≠ '.') = ['/'] from by decide]
      · rfl
    simp only [rsplitDot1]
    split
    · exact h
    · rename_i hne
      rw [htw] at hne ⊢
      by_cases hfull : (y.reverse.takeWhile (fun c => c ≠ '.')).length =
          y.reverse.length
      · exfalso
        rw [if_pos hfull] at hne
        apply hne
        simp
      · rw [if_neg hfull] at hne ⊢
        have hle : (y.reverse.takeWhile (fun c => c ≠ '.')).length ≤
            y.reverse.length := (List.takeWhile_prefix _).length_le
        rw [hrev, List.drop_append_of_le_length (by omega)]
        simp

theorem pyQuote_cons_slash (z : List Char) :
    pyQuote ('/' :: z) = '/' :: pyQuote z := by
  simp only [pyQuote, List.flatMap_cons]
  rw [show pyQuoteChar '/' = ['/'] from by decide]
  rfl

/-- The encoded link path of the absolute branch begins with `/`. -/
theorem encodedAbs_head (p : PyPath) :
    (pyQuote (rsplitDot1 (fixFileNameChars ('/' :: posixOf p)))).head? = some '/' := by
  have h2 := rsplitDot1_slash_head (fixFileNameChars_slash_head (posixOf p))
  rcases hq : rsplitDot1 (fixFileNameChars ('/' :: posixOf p)) with _ | ⟨c, rest⟩
  · rw [hq] at h2; cases h2
  · rw [hq] at h2
    have hc : c = '/' := by simpa using h2
    subst hc
    rw [pyQuote_cons_slash]
    rfl

/-- The display text the resolver uses (`alias`). -/
def resolvedAlias (m : WikiMatch) : List Char :=
  m.g4.getD (lastSlashSeg (pyStrip m.g1))

/-- The anchor the resolver appends, after the in-target `#` split. -/
def resolvedAnchor (m : WikiMatch) : List Char :=
  if (pyStrip m.g1).contains '#' then
    '#' :: (pyStrip m.g1).drop (((pyStrip m.g1).takeWhile (· ≠ '#')).length + 1)
  else m.g2.getD []

def commonPrefixLen : List String → List String → Nat
  | a :: as, b :: bs => if a = b then commonPrefixLen as bs + 1 else 0
  | _, _ => 0

/-- Modelled from the spec: "the path of the resolved note relative to the
current document's containing directory", with parent-directory (`..`) steps
as in `os.path.relpath` — the relative path whose number of `..` segments
the claim's decision rule inspects. -/
def specRelativePath (target base : List String) : List String :=
  List.replicate (base.length - commonPrefixLen target base) ".." ++
    target.drop (commonPrefixLen target base)

/-- C1, corrected: the claim's decision rule would render the spec's own
scenario — document `vault/a/Note One.md` linking to `vault/b/c/Note Two.md`,
whose relative path `../b/c/Note Two.md` needs exactly one `..` step — as a
relative link; the code instead emits the vault-absolute form
`/b/c/note-two`. -/
theorem C1_relative_decision_counterexample :
    wikilink_to_mdlink ⟨"Note Two".data, none, none⟩
      ⟨true, ["vault", "a", "Note One.md"]⟩
      [("Note Two", ⟨false, ["b", "c", "Note Two.md"]⟩)] =
      "[Note Two](/b/c/note-two)" ∧
    specRelativePath ["vault", "b", "c", "Note Two.md"] ["vault", "a"] =
      ["..", "b", "c", "Note Two.md"] ∧
    (["..", "b", "c", "Note Two.md"].countP (fun s => s == "..") = 1) ∧
    ("[Note Two](/b/c/note-two)" : String) ≠ "[Note Two](../b/c/note-two)" := by
  refine ⟨by decide, by decide, by decide, by decide⟩

/-- C1, amended: every wikilink whose target stem is found in the note index
is emitted in the vault-absolute form — the link path begins with `/`.  The
relative branch is unreachable: the indexed note paths are vault-relative
while the current document's resolved directory is absolute, so
`Path.relative_to` always raises `ValueError` (and even when it succeeds,
`relative_to` never produces `..` steps, so the "more than one `..`"
threshold can never select the absolute form by itself). -/
theorem C1_resolved_links_always_absolute
    (m : WikiMatch) (cf : PyPath) (nm : NoteMap) (entry : PyPath)
    (hcf : cf.absolute = true)
    (hrel : ∀ e ∈ nm, e.2.absolute = false)
    (hfound : nmGet nm (lookupTargetStem m) = some entry) :
    wikilink_to_mdlink m cf nm =
      ⟨'[' :: (resolvedAlias m ++ ']' :: '(' ::
        (pyQuote (rsplitDot1 (fixFileNameChars
          ('/' :: posixOf (withSuffixMd entry)))) ++ resolvedAnchor m ++ [')']))⟩ ∧
    (pyQuote (rsplitDot1 (fixFileNameChars
      ('/' :: posixOf (withSuffixMd entry))))).head? = some '/' := by
  refine ⟨?_, encodedAbs_head (withSuffixMd entry)⟩
  have hea : entry.absolute = false := by
    simp only [nmGet, Option.map_eq_some'] at hfound
    obtain ⟨e, hfind, he2⟩ := hfound
    rw [← he2]
    exact hrel e (List.mem_of_find?_eq_some hfind)
  have hrelto : relativeTo (withSuffixMd entry) (parentPath cf) = none := by
    rw [relativeTo, if_neg]
    intro hcond
    have h1 := hcond.1
    rw [withSuffixMd_absolute, hea] at h1
    simp only [parentPath] at h1
    rw [hcf] at h1
    exact Bool.false_ne_true h1
  simp only [lookupTargetStem] at hfound
  simp only [wikilink_to_mdlink]
  rw [hfound]
  dsimp only
  rw [hrelto]
  dsimp only
  rw [if_pos rfl]
  simp only [resolvedAlias, resolvedAnchor]

/-- Witness for C1 (amended) at the concrete scenario inputs. -/
theorem C1_resolved_links_always_absolute_witness :
    wikilink_to_mdlink ⟨"Note Two".data, none, none⟩
        ⟨true, ["vault", "a", "Note One.md"]⟩
        [("Note Two", ⟨false, ["b", "c", "Note Two.md"]⟩)] =
      ⟨'[' :: (resolvedAlias ⟨"Note Two".data, none, none⟩ ++ ']' :: '(' ::
        (pyQuote (rsplitDot1 (fixFileNameChars ('/' :: posixOf
          (withSuffixMd ⟨false, ["b", "c", "Note Two.md"]⟩)))) ++
          resolvedAnchor ⟨"Note Two".data, none, none⟩ ++ [')']))⟩ ∧
    (pyQuote (rsplitDot1 (fixFileNameChars ('/' :: posixOf
      (withSuffixMd ⟨false, ["b", "c", "Note Two.md"]⟩))))).head? = some '/' :=
  C1_resolved_links_always_absolute ⟨"Note Two".data, none, none⟩
    ⟨true, ["vault", "a", "Note One.md"]⟩
    [("Note Two", ⟨false, ["b", "c", "Note Two.md"]⟩)]
    ⟨false, ["b", "c", "Note Two.md"]⟩ rfl (by decide) (by decide)

/-! ## Claim C9 -/

theorem toNat_ofNat_valid {n : Nat} (h : n.isValidChar) :
    (Char.ofNat n).toNat = n := by
  rw [Char.ofNat, dif_pos h]
  rfl

theorem pyLowerChar_toNat_of_upper {c : Char}
    (h : 65 ≤ c.toNat ∧ c.toNat ≤ 90) :
    (pyLowerChar c).toNat = c.toNat + 32 := by
  rw [pyLowerChar, if_pos h]
  exact toNat_ofNat_valid (Or.inl (by omega))

/-- Lowercasing is idempotent on every character. -/
theorem pyLowerChar_idem (c : Char) :
    pyLowerChar (pyLowerChar c) = pyLowerChar c := by
  by_cases h : 65 ≤ c.toNat ∧ c.toNat ≤ 90
  · have ht := pyLowerChar_toNat_of_upper h
    conv_lhs => rw [pyLowerChar]
    rw [if_neg (by omega)]
  · have ht : pyLowerChar c = c := by rw [pyLowerChar, if_neg h]
    rw [ht, ht]

/-- A character below code point 65 is produced by `pyLowerChar` only from
itself (covers `' '`, `'.'`, `'/'`, `'-'`, `'\n'`.). -/
theorem pyLowerChar_eq_low {c d : Char} (hd : d.toNat < 65)
    (h : pyLowerChar c = d) : c = d := by
  by_cases hc : 65 ≤ c.toNat ∧ c.toNat ≤ 90
  · exfalso
    have ht := pyLowerChar_toNat_of_upper hc
    rw [h] at ht
    omega
  · rw [pyLowerChar, if_neg hc] at h
    exact h

theorem pyLowerChar_low_fix {d : Char} (hd : d.toNat < 65) :
    pyLowerChar d = d := by
  rw [pyLowerChar, if_neg (by omega)]

theorem dropWhile_head_fails {p : Char → Bool} {l : List Char} {c : Char}
    {t : List Char} (h : l.dropWhile p = c :: t) : p c = false := by
  induction l with
  | nil => cases h
  | cons a l' ih =>
    rw [List.dropWhile_cons] at h
    split at h
    · exact ih h
    · cases h
      rename_i hp
      exact Bool.not_eq_true _ |>.mp hp

/-- On slash-free input `os.path.split` gives an empty directory part. -/
theorem pySplitPath_noslash {l : List Char} (h : '/' ∉ l) :
    pySplitPath l = ([], l) := by
  have htw : l.reverse.takeWhile (fun c => c ≠ '/') = l.reverse :=
    List.takeWhile_eq_self_iff.mpr (by
      intro c hc
      simp only [decide_eq_true_eq]
      exact fun h' => h (h' ▸ List.mem_reverse.mp hc))
  simp only [pySplitPath, htw, List.drop_length, List.reverse_nil, List.reverse_reverse]
  rw [if_neg (by simp)]

theorem pyJoin_nil (f : List Char) : pyJoin [] f = f := by
  simp only [pyJoin]
  split
  · rfl
  · simp

/-- On slash-free input, `fix_file_name` is the dot-removal on the stem
followed by the lowercase/dash pipeline. -/
theorem fixFileNameChars_noslash {l : List Char} (h : '/' ∉ l) :
    fixFileNameChars l =
      lowerAndDashes ((pySplitext l).1.filter (· ≠ '.') ++ (pySplitext l).2) := by
  simp only [fixFileNameChars, pySplitPath_noslash h, pyJoin_nil]

theorem replaceSDS_mem (l : List Char) : ∀ c ∈ replaceSDS l, c ∈ l ∨ c = '-' := by
  induction l using replaceSDS.induct with
  | case1 rest ih =>
    intro c hc
    rw [show replaceSDS (' ' :: '-' :: ' ' :: rest) =
      '-' :: replaceSDS rest from rfl] at hc
    rcases List.mem_cons.mp hc with rfl | hm
    · exact Or.inr rfl
    · rcases ih c hm with h' | h'
      · exact Or.inl (by simp [h'])
      · exact Or.inr h'
  | case2 c rest h ih =>
    intro x hx
    rw [replaceSDS.eq_2 c rest h] at hx
    rcases List.mem_cons.mp hx with rfl | hm
    · exact Or.inl (List.mem_cons_self ..)
    · rcases ih x hm with h' | h'
      · exact Or.inl (List.mem_cons_of_mem _ h')
      · exact Or.inr h'
  | case3 => intro c hc; cases hc

theorem replaceSDS_id_of_no_space {l : List Char} (h : ' ' ∉ l) :
    replaceSDS l = l := by
  induction l using replaceSDS.induct with
  | case1 rest ih => exact absurd (List.mem_cons_self ..) h
  | case2 c rest hg ih =>
    rw [replaceSDS.eq_2 c rest hg, ih (fun hm => h (List.mem_cons_of_mem _ hm))]
  | case3 => rfl

theorem replaceSDS_count {d : Char} (h1 : d ≠ ' ') (h2 : d ≠ '-') (l : List Char) :
    (replaceSDS l).count d = l.count d := by
  induction l using replaceSDS.induct with
  | case1 rest ih =>
    rw [show replaceSDS (' ' :: '-' :: ' ' :: rest) =
      '-' :: replaceSDS rest from rfl]
    simp [List.count_cons, ih, Ne.symm h1, Ne.symm h2]
  | case2 c rest hg ih =>
    rw [replaceSDS.eq_2 c rest hg]
    simp [List.count_cons, ih]
  | case3 => rfl

theorem replaceSDS_ne_nil {l : List Char} (h : l ≠ []) : replaceSDS l ≠ [] := by
  induction l using replaceSDS.induct with
  | case1 rest ih =>
    rw [show replaceSDS (' ' :: '-' :: ' ' :: rest) =
      '-' :: replaceSDS rest from rfl]
    simp
  | case2 c rest hg ih =>
    rw [replaceSDS.eq_2 c rest hg]
    simp
  | case3 => exact absurd rfl h

theorem replaceSDS_head (l : List Char) :
    (replaceSDS l).head? = l.head? ∨ (replaceSDS l).head? = some '-' := by
  induction l using replaceSDS.induct with
  | case1 rest ih =>
    rw [show replaceSDS (' ' :: '-' :: ' ' :: rest) =
      '-' :: replaceSDS rest from rfl]
    exact Or.inr rfl
  | case2 c rest hg ih =>
    rw [replaceSDS.eq_2 c rest hg]
    exact Or.inl rfl
  | case3 => exact Or.inl rfl

theorem replaceSpace_no_space (l : List Char) : ' ' ∉ replaceSpace l := by
  intro hm
  obtain ⟨a, _, ha⟩ := List.mem_map.mp hm
  by_cases h : a = ' ' <;> simp [h] at ha

theorem replaceSpace_mem (l : List Char) :
    ∀ c ∈ replaceSpace l, c ∈ l ∨ c = '-' := by
  intro c hc
  obtain ⟨a, hal, ha⟩ := List.mem_map.mp hc
  by_cases h : a = ' '
  · rw [if_pos h] at ha
    exact Or.inr ha.symm
  · rw [if_neg h] at ha
    exact Or.inl (ha ▸ hal)

theorem replaceSpace_id_of_no_space {l : List Char} (h : ' ' ∉ l) :
    replaceSpace l = l := by
  rw [replaceSpace]
  conv_rhs => rw [← List.map_id l]
  refine List.map_congr_left ?_
  intro a ha
  rw [if_neg (fun h' => h (by rw [← h']; exact ha))]
  rfl

theorem replaceSpace_count {d : Char} (h1 : d ≠ ' ') (h2 : d ≠ '-')
    (l : List Char) : (replaceSpace l).count d = l.count d := by
  induction l with
  | nil => rfl
  | cons a t ih =>
    simp only [replaceSpace, List.map_cons] at ih ⊢
    by_cases h : a = ' '
    · rw [if_pos h, h]
      simp [List.count_cons, ih, Ne.symm h1, Ne.symm h2]
    · rw [if_neg h]
      simp [List.count_cons, ih]

theorem replaceSpace_head (l : List Char) :
    (replaceSpace l).head? = l.head?.map fun c => if c = ' ' then '-' else c := by
  cases l <;> rfl

theorem pyLower_id_of_fixed {l : List Char} (h : ∀ c ∈ l, pyLowerChar c = c) :
    pyLower l = l := by
  rw [pyLower]
  conv_rhs => rw [← List.map_id l]
  exact List.map_congr_left h

theorem pyLower_count {d : Char} (hd : d.toNat < 65) (l : List Char) :
    (pyLower l).count d = l.count d := by
  induction l with
  | nil => rfl
  | cons a t ih =>
    simp only [pyLower, List.map_cons] at ih ⊢
    by_cases h : a = d
    · rw [h, pyLowerChar_low_fix hd]
      simp [List.count_cons, ih]
    · have hne : pyLowerChar a ≠ d := fun h' => h (pyLowerChar_eq_low hd h')
      simp [List.count_cons, ih, h, hne]

theorem lowerAndDashes_no_space (l : List Char) : ' ' ∉ lowerAndDashes l :=
  replaceSpace_no_space _

theorem lowerAndDashes_lower_fixed (l : List Char) :
    ∀ c ∈ lowerAndDashes l, pyLowerChar c = c := by
  intro c hc
  rcases replaceSpace_mem _ c hc with h1 | h1
  · rcases replaceSDS_mem _ c h1 with h2 | h2
    · obtain ⟨a, _, ha⟩ := List.mem_map.mp h2
      rw [← ha]
      exact pyLowerChar_idem a
    · rw [h2]
      exact pyLowerChar_low_fix (by decide)
  · rw [h1]
    exact pyLowerChar_low_fix (by decide)

theorem lowerAndDashes_id_of_sane {l : List Char} (h1 : ' ' ∉ l)
    (h2 : ∀ c ∈ l, pyLowerChar c = c) : lowerAndDashes l = l := by
  rw [lowerAndDashes, pyLower_id_of_fixed h2, replaceSDS_id_of_no_space h1,
    replaceSpace_id_of_no_space h1]

theorem lowerAndDashes_count_dot (l : List Char) :
    (lowerAndDashes l).count '.' = l.count '.' := by
  rw [lowerAndDashes, replaceSpace_count (by decide) (by decide),
    replaceSDS_count (by decide) (by decide), pyLower_count (by decide)]

theorem lowerAndDashes_no_slash {l : List Char} (h : '/' ∉ l) :
    '/' ∉ lowerAndDashes l := by
  intro hm
  rcases replaceSpace_mem _ _ hm with h1 | h1
  · rcases replaceSDS_mem _ _ h1 with h2 | h2
    · obtain ⟨a, hal, ha⟩ := List.mem_map.mp h2
      exact h ((pyLowerChar_eq_low (by decide) ha) ▸ hal)
    · cases h2
  · cases h1

theorem lowerAndDashes_head_ne_dot {l : List Char} {c : Char}
    (hl : l.head? = some c) (hc : c ≠ '.') :
    ∀ d, (lowerAndDashes l).head? = some d → d ≠ '.' := by
  intro d hd
  match l with
  | [] => cases hl
  | a :: t =>
    have ha : a = c := by simpa using hl
    subst ha
    rw [lowerAndDashes] at hd
    have hlo : pyLower (a :: t) = pyLowerChar a :: pyLower t := rfl
    rw [hlo] at hd
    have hane : pyLowerChar a ≠ '.' :=
      fun h' => hc (pyLowerChar_eq_low (by decide) h')
    rcases replaceSDS_head (pyLowerChar a :: pyLower t) with hh | hh
    · rcases hsds : replaceSDS (pyLowerChar a :: pyLower t) with _ | ⟨b, bs⟩
      · rw [hsds] at hd; cases hd
      · rw [hsds] at hh hd
        have hb : b = pyLowerChar a := by
          rw [List.head?] at hh
          simpa using hh
        rw [replaceSpace_head] at hd
        simp only [List.head?, Option.map_some'] at hd
        have hdv : d = if b = ' ' then '-' else b := by simpa using hd.symm
        rw [hdv]
        split
        · decide
        · rw [hb]; exact hane
    · rcases hsds : replaceSDS (pyLowerChar a :: pyLower t) with _ | ⟨b, bs⟩
      · rw [hsds] at hd; cases hd
      · rw [hsds] at hh hd
        have hb : b = '-' := by
          rw [List.head?] at hh
          simpa using hh
        rw [replaceSpace_head] at hd
        simp only [List.head?, Option.map_some'] at hd
        have hdv : d = if b = ' ' then '-' else b := by simpa using hd.symm
        rw [hdv, hb]
        decide

theorem lowerAndDashes_ne_nil {l : List Char} (h : l ≠ []) :
    lowerAndDashes l ≠ [] := by
  rw [lowerAndDashes]
  intro hm
  have h1 : replaceSDS (pyLower l) = [] := by
    rcases hr : replaceSDS (pyLower l) with _ | ⟨b, bs⟩
    · rfl
    · rw [replaceSpace, hr] at hm
      cases hm
  exact replaceSDS_ne_nil (by
    intro hp
    exact h (by
      cases l
      · rfl
      · cases hp)) h1

/-- Input without dots is returned whole by `splitext`. -/
theorem pySplitext_nodot {l : List Char} (h : '.' ∉ l) :
    pySplitext l = (l, []) := by
  simp only [pySplitext]
  rcases hdrop : l.reverse.drop
      ((l.reverse.takeWhile fun c => c ≠ '.' ∧ c ≠ '/').length) with _ | ⟨c, restRev⟩
  · rfl
  · dsimp only
    have hdw : l.reverse.dropWhile (fun c => decide (c ≠ '.' ∧ c ≠ '/')) =
        c :: restRev := by
      rw [← drop_length_takeWhile]
      exact hdrop
    have hfail := dropWhile_head_fails hdw
    have hcmem : c ∈ l := by
      have hcd : c ∈ l.reverse.drop
          ((l.reverse.takeWhile fun c => c ≠ '.' ∧ c ≠ '/').length) := by
        rw [hdrop]
        exact List.mem_cons_self ..
      exact List.mem_reverse.mp (List.mem_of_mem_drop hcd)
    have hcne : c ≠ '.' := fun h' => h (by rw [← h']; exact hcmem)
    rw [if_neg hcne]

/-- With a dot-free nonempty stem and a dot-free extension tail, `splitext`
splits exactly at the marked dot. -/
theorem pySplitext_onedot {a b : List Char} (ha : a ≠ []) (had : '.' ∉ a)
    (hbd : '.' ∉ b) (has : '/' ∉ a) (hbs : '/' ∉ b) :
    pySplitext (a ++ '.' :: b) = (a, '.' :: b) := by
  have hrev : (a ++ '.' :: b).reverse = b.reverse ++ '.' :: a.reverse := by
    simp
  have htw : (a ++ '.' :: b).reverse.takeWhile (fun c => c ≠ '.' ∧ c ≠ '/') =
      b.reverse := by
    rw [hrev, List.takeWhile_append_of_pos (by
      intro c hc
      simp only [decide_eq_true_eq]
      have hcb : c ∈ b := List.mem_reverse.mp hc
      exact ⟨fun h' => hbd (by rw [← h']; exact hcb),
        fun h' => hbs (by rw [← h']; exact hcb)⟩)]
    rw [List.takeWhile_cons]
    simp
  simp only [pySplitext]
  rw [htw, hrev, List.drop_left]
  dsimp only
  rw [if_pos rfl]
  rw [if_pos (by
    have htwa : a.reverse.takeWhile (fun c => c ≠ '/') = a.reverse :=
      List.takeWhile_eq_self_iff.mpr (by
        intro c hc
        simp only [decide_eq_true_eq]
        exact fun h' => has (by rw [← h']; exact List.mem_reverse.mp hc))
    rw [htwa]
    rcases hav : a.reverse with _ | ⟨c0, cr⟩
    · exact absurd (by simpa using congrArg List.reverse hav) ha
    · refine List.any_eq_true.mpr ⟨c0, List.mem_cons_self .., ?_⟩
      have hc0a : c0 ∈ a := by
        rw [← List.mem_reverse, hav]
        exact List.mem_cons_self ..
      simp only [decide_eq_true_eq]
      exact fun h' => had (by rw [← h']; exact hc0a))]
  simp

/-- The shape of the extension returned by `splitext` on slash-free input:
either empty, or a dot followed by a dot-free tail, with a non-dot character
in the stem. -/
theorem pySplitext_ext_shape {l : List Char} (hs : '/' ∉ l) :
    (pySplitext l).2 = [] ∨
    ((pySplitext l).2.head? = some '.' ∧ '.' ∉ (pySplitext l).2.drop 1 ∧
      ∃ c ∈ (pySplitext l).1, c ≠ '.') := by
  simp only [pySplitext]
  rcases hdrop : l.reverse.drop
      ((l.reverse.takeWhile fun c => c ≠ '.' ∧ c ≠ '/').length) with _ | ⟨c, restRev⟩
  · exact Or.inl rfl
  · dsimp only
    split
    · split
      · rename_i hc hany
        right
        refine ⟨rfl, ?_, ?_⟩
        · simp only [List.drop_one, List.tail_cons]
          intro hm
          have := List.mem_takeWhile_imp (List.mem_reverse.mp hm)
          simp at this
        · obtain ⟨c0, hc0m, hc0⟩ := List.any_eq_true.mp hany
          refine ⟨c0, ?_, by simpa using hc0⟩
          exact List.mem_reverse.mpr (List.takeWhile_subset _ hc0m)
      · exact Or.inl rfl
    · exact Or.inl rfl

/-- Identity of the sanitizer on already-sanitized slash-free input. -/
theorem fix_id_of_sane {l : List Char} (hs : '/' ∉ l) (hsp : ' ' ∉ l)
    (hlo : ∀ c ∈ l, pyLowerChar c = c)
    (hst : (pySplitext l).1.count '.' = 0) :
    fixFileNameChars l = l := by
  rw [fixFileNameChars_noslash hs]
  have hfe : (pySplitext l).1.filter (· ≠ '.') = (pySplitext l).1 :=
    List.filter_eq_self.mpr (by
      intro c hc
      simp only [decide_eq_true_eq]
      intro h'
      rw [h'] at hc
      exact (List.count_eq_zero.mp hst) hc)
  rw [hfe, pySplitext_append, lowerAndDashes_id_of_sane hsp hlo]

/-- The sanitized output's stem is dot-free. -/
theorem stem_dotfree_of_parts {n e : List Char}
    (hslash : '/' ∉ n.filter (· ≠ '.') ++ e)
    (hshape : e = [] ∨ (e.head? = some '.' ∧ '.' ∉ e.drop 1 ∧ ∃ c ∈ n, c ≠ '.')) :
    (pySplitext (lowerAndDashes (n.filter (· ≠ '.') ++ e))).1.count '.' = 0 := by
  have hcf : (n.filter (· ≠ '.')).count '.' = 0 := by
    rw [List.count_eq_zero]
    intro hm
    have := List.of_mem_filter hm
    simp at this
  rcases hshape with hsh | ⟨hh, ht, c0, hc0n, hc0⟩
  · have hcount : (lowerAndDashes (n.filter (· ≠ '.') ++ e)).count '.' = 0 := by
      rw [lowerAndDashes_count_dot, List.count_append, hcf, hsh]
      rfl
    rw [pySplitext_nodot (List.count_eq_zero.mp hcount)]
    exact hcount
  · rcases he2 : e with _ | ⟨e0, er⟩
    · rw [he2] at hh; cases hh
    · have he0 : e0 = '.' := by rw [he2] at hh; simpa using hh
      subst he0
      have her : '.' ∉ er := by
        rw [he2] at ht
        simpa using ht
      have hfne : n.filter (· ≠ '.') ≠ [] := by
        intro hfe
        have hmem : c0 ∈ n.filter (· ≠ '.') :=
          List.mem_filter.mpr ⟨hc0n, by simpa⟩
        rw [hfe] at hmem
        cases hmem
      obtain ⟨c1, cr1, hfl⟩ : ∃ c1 cr1, n.filter (· ≠ '.') = c1 :: cr1 := by
        rcases hf : n.filter (· ≠ '.') with _ | ⟨c1, cr1⟩
        · exact absurd hf hfne
        · exact ⟨c1, cr1, rfl⟩
      have hc1 : c1 ≠ '.' := by
        have hm1 : c1 ∈ n.filter (· ≠ '.') := by
          rw [hfl]
          exact List.mem_cons_self ..
        have := List.of_mem_filter hm1
        simpa using this
      have hddh : (n.filter (· ≠ '.') ++ e).head? = some c1 := by
        rw [head?_append_of_ne_nil hfne, hfl]
        rfl
      have hyhead := lowerAndDashes_head_ne_dot hddh hc1
      have hcy : (lowerAndDashes (n.filter (· ≠ '.') ++ e)).count '.' = 1 := by
        rw [lowerAndDashes_count_dot, List.count_append, hcf, he2]
        simp [List.count_cons, List.count_eq_zero.mpr her]
      have hmemy : '.' ∈ lowerAndDashes (n.filter (· ≠ '.') ++ e) := by
        have : 0 < (lowerAndDashes (n.filter (· ≠ '.') ++ e)).count '.' := by
          omega
        exact List.count_pos_iff.mp this
      rcases hdw : (lowerAndDashes (n.filter (· ≠ '.') ++ e)).dropWhile (· ≠ '.')
          with _ | ⟨d0, q⟩
      · exfalso
        have := List.dropWhile_eq_nil_iff.mp hdw '.' hmemy
        simp at this
      · have hd0 : d0 = '.' := by
          have := dropWhile_head_fails hdw
          simpa using this
        subst hd0
        have hdecomp : (lowerAndDashes (n.filter (· ≠ '.') ++ e)).takeWhile (· ≠ '.')
            ++ '.' :: q = lowerAndDashes (n.filter (· ≠ '.') ++ e) := by
          conv_rhs => rw [← List.takeWhile_append_dropWhile
            (p := fun c => decide (c ≠ '.'))
            (l := lowerAndDashes (n.filter (· ≠ '.') ++ e))]
          rw [hdw]
        have hpd : '.' ∉ (lowerAndDashes (n.filter (· ≠ '.') ++ e)).takeWhile
            (· ≠ '.') := by
          intro hm
          have := List.mem_takeWhile_imp hm
          simp at this
        have hqd : '.' ∉ q := by
          have hcnt := congrArg (List.count '.') hdecomp
          rw [List.count_append, hcy] at hcnt
          simp only [List.count_cons_self] at hcnt
          have hc0' : ((lowerAndDashes (n.filter (· ≠ '.') ++ e)).takeWhile
              (· ≠ '.')).count '.' = 0 := List.count_eq_zero.mpr hpd
          rw [hc0'] at hcnt
          exact List.count_eq_zero.mp (by omega)
        have hpne : (lowerAndDashes (n.filter (· ≠ '.') ++ e)).takeWhile
            (· ≠ '.') ≠ [] := by
          intro hpe
          have hyh : (lowerAndDashes (n.filter (· ≠ '.') ++ e)).head? = some '.' := by
            rw [← hdecomp, hpe]
            rfl
          exact hyhead '.' hyh rfl
        have hys : '/' ∉ lowerAndDashes (n.filter (· ≠ '.') ++ e) :=
          lowerAndDashes_no_slash hslash
        have hps : '/' ∉ (lowerAndDashes (n.filter (· ≠ '.') ++ e)).takeWhile
            (· ≠ '.') := by
          intro hm
          exact hys (by rw [← hdecomp]; exact List.mem_append_left _ hm)
        have hqs : '/' ∉ q := by
          intro hm
          exact hys (by
            rw [← hdecomp]
            exact List.mem_append_right _ (List.mem_cons_of_mem _ hm))
        rw [← he2, ← hdecomp, pySplitext_onedot hpne hpd hqd hps hqs]
        exact List.count_eq_zero.mpr hpd

/-- The sanitizer's output on a slash-free segment is slash-free, space-free,
lowercase-stable, and has a dot-free stem. -/
theorem fix_sane {x : List Char} (hs : '/' ∉ x) :
    '/' ∉ fixFileNameChars x ∧ ' ' ∉ fixFileNameChars x ∧
    (∀ c ∈ fixFileNameChars x, pyLowerChar c = c) ∧
    (pySplitext (fixFileNameChars x)).1.count '.' = 0 := by
  rw [fixFileNameChars_noslash hs]
  have hddsub : ∀ c ∈ (pySplitext x).1.filter (· ≠ '.') ++ (pySplitext x).2,
      c ∈ x := by
    intro c hc
    rw [← pySplitext_append x]
    rcases List.mem_append.mp hc with h | h
    · exact List.mem_append.mpr (Or.inl (List.mem_of_mem_filter h))
    · exact List.mem_append.mpr (Or.inr h)
  have hdds : '/' ∉ (pySplitext x).1.filter (· ≠ '.') ++ (pySplitext x).2 :=
    fun hm => hs (hddsub _ hm)
  exact ⟨lowerAndDashes_no_slash hdds, lowerAndDashes_no_space _,
    lowerAndDashes_lower_fixed _,
    stem_dotfree_of_parts hdds (pySplitext_ext_shape hs)⟩

/-- C9: the filename sanitizer is idempotent on path segments —
`fix_file_name (fix_file_name x) = fix_file_name x` for every slash-free
`x`. -/
theorem C9_sanitizer_idempotent (x : String) (h : '/' ∉ x.data) :
    fix_file_name (fix_file_name x) = fix_file_name x := by
  obtain ⟨h1, h2, h3, h4⟩ := fix_sane h
  simp only [fix_file_name]
  rw [fix_id_of_sane h1 h2 h3 h4]

/-- Witness for C9 at a concrete segment. -/
theorem C9_sanitizer_idempotent_witness :
    fix_file_name (fix_file_name "Note One.md") = fix_file_name "Note One.md" :=
  C9_sanitizer_idempotent "Note One.md" (by decide)

/-! ## C6: whole-path versus per-segment sanitization -/

theorem joinSegs_append_last (init : List (List Char)) (h : init ≠ []) (f : List Char) :
    joinSegs (init ++ [f]) = joinSegs init ++ '/' :: f := by
  induction init with
  | nil => exact absurd rfl h
  | cons s rest ih =>
    cases rest with
    | nil => rfl
    | cons r rest₁ =>
      show s ++ '/' :: joinSegs ((r :: rest₁) ++ [f]) =
        (s ++ '/' :: joinSegs (r :: rest₁)) ++ '/' :: f
      rw [ih (by simp)]
      simp

/-- A `/`-joined list of nonempty slash-free segments is nonempty and does not
end in `/`. -/
theorem joinSegs_facts : ∀ (init : List (List Char)), init ≠ [] →
    (∀ s ∈ init, s ≠ [] ∧ '/' ∉ s) →
    joinSegs init ≠ [] ∧ (joinSegs init).getLast? ≠ some '/' := by
  intro init
  induction init with
  | nil => intro h _; exact absurd rfl h
  | cons s rest ih =>
    intro _ hs
    cases rest with
    | nil =>
      obtain ⟨h1, h2⟩ := hs s (List.mem_cons_self ..)
      exact ⟨h1, fun hl => h2 (List.mem_of_mem_getLast? hl)⟩
    | cons r rest₁ =>
      obtain ⟨hne₁, hl₁⟩ := ih (by simp) (fun t ht => hs t (List.mem_cons_of_mem _ ht))
      constructor
      · show s ++ '/' :: joinSegs (r :: rest₁) ≠ []
        simp
      · show (s ++ '/' :: joinSegs (r :: rest₁)).getLast? ≠ some '/'
        rw [List.getLast?_append_of_ne_nil _
          (show ('/' :: joinSegs (r :: rest₁)) ≠ [] by simp),
          show ('/' :: joinSegs (r :: rest₁)) = ['/'] ++ joinSegs (r :: rest₁) from rfl,
          List.getLast?_append_of_ne_nil _ hne₁]
        exact hl₁

/-- `str.replace(" - ", "-")` never matches across a `/`, so it distributes
over a `/`-separated concatenation. -/
theorem replaceSDS_append_slash (x y : List Char) :
    replaceSDS (x ++ '/' :: y) = replaceSDS x ++ '/' :: replaceSDS y := by
  induction x using replaceSDS.induct with
  | case1 rest ih =>
    rw [show (' ' :: '-' :: ' ' :: rest) ++ '/' :: y =
      ' ' :: '-' :: ' ' :: (rest ++ '/' :: y) from rfl,
      show replaceSDS (' ' :: '-' :: ' ' :: (rest ++ '/' :: y)) =
        '-' :: replaceSDS (rest ++ '/' :: y) from rfl, ih,
      show replaceSDS (' ' :: '-' :: ' ' :: rest) = '-' :: replaceSDS rest from rfl]
    rfl
  | case2 c rest hg ih =>
    have hg₁ : ∀ r₁ : List Char, c = ' ' → rest ++ '/' :: y = '-' :: ' ' :: r₁ → False := by
      intro r₁ hc heq
      rcases rest with _ | ⟨d, _ | ⟨e, r⟩⟩
      · simp at heq
      · simp at heq
      · have hde : d = '-' ∧ e = ' ' := by
          have h₁ := heq
          injection h₁ with h₁a h₁b
          injection h₁b with h₁c h₁d
          exact ⟨h₁a, h₁c⟩
        exact hg r hc (by rw [hde.1, hde.2])
    rw [show (c :: rest) ++ '/' :: y = c :: (rest ++ '/' :: y) from rfl,
      replaceSDS.eq_2 c (rest ++ '/' :: y) hg₁, ih, replaceSDS.eq_2 c rest hg]
    rfl
  | case3 => rfl

/-- The lowercase/dash pipeline distributes over a `/`-separated
concatenation. -/
theorem lowerAndDashes_append_slash (x y : List Char) :
    lowerAndDashes (x ++ '/' :: y) = lowerAndDashes x ++ '/' :: lowerAndDashes y := by
  simp only [lowerAndDashes, pyLower, List.map_append, List.map_cons]
  rw [show pyLowerChar '/' = '/' from rfl, replaceSDS_append_slash]
  simp only [replaceSpace, List.map_append, List.map_cons]
  rfl

/-- `os.path.split` on a path whose final segment is slash-free and whose
directory part does not end in `/` recovers exactly those two parts. -/
theorem pySplitPath_append {p f : List Char} (hf : '/' ∉ f)
    (hpne : p ≠ []) (hpl : p.getLast? ≠ some '/') :
    pySplitPath (p ++ '/' :: f) = (p, f) := by
  obtain ⟨c, t, hct⟩ : ∃ c t, p.reverse = c :: t := by
    rcases hpr : p.reverse with _ | ⟨c, t⟩
    · exact absurd (by simpa using congrArg List.reverse hpr) hpne
    · exact ⟨c, t, rfl⟩
  have hcp : p.getLast? = some c := by rw [← List.head?_reverse, hct]; rfl
  have hcne : c ≠ '/' := fun h => hpl (h ▸ hcp)
  have hrev : (p ++ '/' :: f).reverse = f.reverse ++ '/' :: p.reverse := by simp
  have htwf : f.reverse.takeWhile (fun c => c ≠ '/') = f.reverse :=
    List.takeWhile_eq_self_iff.mpr (by
      intro c hc
      simp only [decide_eq_true_eq]
      exact fun h => hf (h ▸ List.mem_reverse.mp hc))
  have htw : (f.reverse ++ '/' :: p.reverse).takeWhile (fun c => c ≠ '/') = f.reverse := by
    rw [List.takeWhile_append, if_pos (by rw [htwf]),
      show ('/' :: p.reverse).takeWhile (fun c => c ≠ '/') = [] from by simp,
      List.append_nil]
  have hdrop : (f.reverse ++ '/' :: p.reverse).drop f.reverse.length = '/' :: p.reverse :=
    List.drop_left f.reverse ('/' :: p.reverse)
  have hdw : ('/' :: p.reverse).dropWhile (fun c => c = '/') = p.reverse := by
    rw [List.dropWhile_cons, if_pos (by simp), hct, List.dropWhile_cons,
      if_neg (by simp [hcne])]
  have hcond : ('/' :: p.reverse).reverse ≠ [] ∧
      (('/' :: p.reverse).reverse).any (fun c => c ≠ '/') := by
    constructor
    · simp
    · rw [List.any_reverse]
      refine List.any_eq_true.mpr ⟨c, ?_, by simp [hcne]⟩
      exact List.mem_cons_of_mem _ (hct ▸ List.mem_cons_self ..)
  simp only [pySplitPath, hrev, htw, hdrop]
  rw [if_pos hcond, List.reverse_reverse, hdw, List.reverse_reverse,
    List.reverse_reverse]

/-- `os.path.join` on a nonempty head not ending in `/` and a tail not
starting with `/` inserts a single separator. -/
theorem pyJoin_slashfree {p f : List Char} (hpne : p ≠ [])
    (hpl : p.getLast? ≠ some '/') (hf : '/' ∉ f) :
    pyJoin p f = p ++ '/' :: f := by
  simp only [pyJoin]
  rw [if_neg, if_neg (fun h => h.elim hpne hpl)]
  intro h
  rcases f with _ | ⟨d, t⟩
  · cases h
  · have hd : d = '/' := by injection h
    exact hf (hd ▸ List.mem_cons_self ..)

/-- On a slash-free segment whose stem carries no dot, the dot-removal step
is the identity and the sanitizer is just the lowercase/dash pipeline. -/
theorem fixFileNameChars_dotfree_stem {f : List Char} (hs : '/' ∉ f)
    (hd : '.' ∉ (pySplitext f).1) : fixFileNameChars f = lowerAndDashes f := by
  have hfe : (pySplitext f).1.filter (· ≠ '.') = (pySplitext f).1 :=
    List.filter_eq_self.mpr (fun c hc => by
      simp only [decide_eq_true_eq]
      exact fun h => hd (h ▸ hc))
  rw [fixFileNameChars_noslash hs, hfe, pySplitext_append]

/-- The sanitizer splits off the final slash-free segment: the directory part
only goes through the lowercase/dash pipeline while the final segment gets the
full treatment. -/
theorem fixFileNameChars_append {p f : List Char} (hf : '/' ∉ f)
    (hpne : p ≠ []) (hpl : p.getLast? ≠ some '/') :
    fixFileNameChars (p ++ '/' :: f) = lowerAndDashes p ++ '/' :: fixFileNameChars f := by
  have hX : '/' ∉ (pySplitext f).1.filter (· ≠ '.') ++ (pySplitext f).2 := by
    intro hmem
    rcases List.mem_append.mp hmem with hm | hm
    · exact hf (by
        rw [← pySplitext_append f]
        exact List.mem_append.mpr (Or.inl (List.mem_of_mem_filter hm)))
    · exact hf (by
        rw [← pySplitext_append f]
        exact List.mem_append.mpr (Or.inr hm))
  simp only [fixFileNameChars, pySplitPath_append hf hpne hpl,
    pySplitPath_noslash hf, pyJoin_nil]
  rw [pyJoin_slashfree hpne hpl hX, lowerAndDashes_append_slash]

/-- On a `/`-join of segments with dot-free stems, the lowercase/dash pipeline
coincides with mapping the full sanitizer over the segments. -/
theorem lowerAndDashes_joinSegs : ∀ (init : List (List Char)), init ≠ [] →
    (∀ s ∈ init, s ≠ [] ∧ '/' ∉ s ∧ '.' ∉ (pySplitext s).1) →
    lowerAndDashes (joinSegs init) = joinSegs (init.map fixFileNameChars) := by
  intro init
  induction init with
  | nil => intro h _; exact absurd rfl h
  | cons s rest ih =>
    intro _ hs
    obtain ⟨h1, h2, h3⟩ := hs s (List.mem_cons_self ..)
    cases rest with
    | nil =>
      show lowerAndDashes s = fixFileNameChars s
      exact (fixFileNameChars_dotfree_stem h2 h3).symm
    | cons r rest₁ =>
      show lowerAndDashes (s ++ '/' :: joinSegs (r :: rest₁)) = _
      rw [lowerAndDashes_append_slash,
        ih (by simp) (fun t ht => hs t (List.mem_cons_of_mem _ ht)),
        ← fixFileNameChars_dotfree_stem h2 h3]
      rfl

/-- C6 counterexample: whole-path sanitization is NOT the per-segment join in
general — a dot inside a non-final segment's stem survives the whole-path pass
(only the last segment is dot-stripped) but is removed by the per-segment
pass. -/
theorem C6_per_segment_counterexample :
    fixFileNameChars (joinSegs [['a', '.', 'b', '.', 'c'], ['x', '.', 'm', 'd']]) ≠
      joinSegs ([['a', '.', 'b', '.', 'c'], ['x', '.', 'm', 'd']].map fixFileNameChars) := by
  decide

/-- C6 (amended): for a multi-segment vault-relative path whose segments are
nonempty and slash-free and whose non-final segments have dot-free stems, the
whole-path sanitization applied at link-generation time coincides with the
join of the per-segment sanitizations applied during directory mirroring. -/
theorem C6_sanitizer_per_segment (init : List (List Char)) (f : List Char)
    (hinit : ∀ s ∈ init, s ≠ [] ∧ '/' ∉ s ∧ '.' ∉ (pySplitext s).1)
    (hne : init ≠ []) (hf : '/' ∉ f) :
    fixFileNameChars (joinSegs (init ++ [f])) =
      joinSegs ((init ++ [f]).map fixFileNameChars) := by
  obtain ⟨hjne, hjl⟩ := joinSegs_facts init hne
    (fun s hs => ⟨(hinit s hs).1, (hinit s hs).2.1⟩)
  rw [joinSegs_append_last init hne f, fixFileNameChars_append hf hjne hjl,
    lowerAndDashes_joinSegs init hne hinit]
  simp only [List.map_append, List.map_cons, List.map_nil]
  rw [joinSegs_append_last (init.map fixFileNameChars) (by simpa using hne)
    (fixFileNameChars f)]

/-- Witness for C6 at a concrete two-segment path. -/
theorem C6_sanitizer_per_segment_witness :
    fixFileNameChars (joinSegs ([['v', '1']] ++
        [['N', 'o', 't', 'e', ' ', 'O', 'n', 'e', '.', 'm', 'd']])) =
      joinSegs (([['v', '1']] ++
        [['N', 'o', 't', 'e', ' ', 'O', 'n', 'e', '.', 'm', 'd']]).map fixFileNameChars) :=
  C6_sanitizer_per_segment [['v', '1']]
    ['N', 'o', 't', 'e', ' ', 'O', 'n', 'e', '.', 'm', 'd']
    (by decide) (by decide) (by decide)

end ObsToWiki
